import Mathlib

set_option maxHeartbeats 1000000

/-
  Verification of the ST-CharacterDistributor server core against its
  specification.

  Shallow embedding conventions:
  - a byte buffer is a `List Nat` of byte values;
  - a JavaScript string is a `List Nat` of Unicode code points;
  - JavaScript numbers are modelled as exact decimal values
    (`JNumber`, mantissa times a power of ten); the claims considered
    never depend on IEEE-754 rounding, and no arithmetic other than
    comparison is performed on these values by the code;
  - fallible operations return `Option`; a thrown-and-caught exception
    is modelled by the `Option`/branch structure of the caller;
  - the Dropbox remote is an explicit state (`Env`) threaded through the
    reconciliation functions, with failure-injection lists standing for
    network errors, and a trace of remote actions recording the calls
    the code issues.
-/

namespace CharDist

abbrev Bytes := List Nat

def strCodes (s : String) : List Nat := s.toList.map Char.toNat

/-! ## Decimal numbers (model of JavaScript version numbers) -/

/-- Exact decimal number: value is `man / 10 ^ exp`. -/
structure JNumber where
  man : Int
  exp : Nat
deriving DecidableEq, Repr

/-- Strip trailing decimal zeros from a mantissa-exponent pair. -/
def JNumber.normAux : Int → Nat → JNumber
  | m, 0 => ⟨m, 0⟩
  | m, e+1 => if m % 10 = 0 then JNumber.normAux (m / 10) e else ⟨m, e+1⟩

/-- Canonical form of a decimal value, the form a JavaScript number
keeps (the float has no memory of trailing zeros in its source text). -/
def JNumber.norm (q : JNumber) : JNumber := JNumber.normAux q.man q.exp

def JNumber.canonical (q : JNumber) : Bool := q.exp = 0 || decide (q.man % 10 ≠ 0)

theorem JNumber.norm_of_canonical (q : JNumber) (h : q.canonical = true) : q.norm = q := by
  obtain ⟨m, e⟩ := q
  cases e with
  | zero => rfl
  | succ e =>
    simp only [JNumber.canonical, Bool.or_eq_true, decide_eq_true_eq] at h
    have hm : ¬ m % 10 = 0 := by
      rcases h with h | h
      · exact absurd h (by omega)
      · exact h
    simp [JNumber.norm, JNumber.normAux, hm]

/-- Numeric strict order on decimal values, by cross multiplication. -/
def JNumber.ltB (a b : JNumber) : Bool :=
  decide (a.man * (10:Int) ^ b.exp < b.man * (10:Int) ^ a.exp)

/-- Numeric equality test on decimal values. -/
def JNumber.eqB (a b : JNumber) : Bool :=
  decide (a.man * (10:Int) ^ b.exp = b.man * (10:Int) ^ a.exp)

theorem JNumber.ltB_irrefl (a : JNumber) : a.ltB a = false := by
  simp [JNumber.ltB]

/-! ## Decimal digit printing and reading -/

def isDigitB (c : Nat) : Bool := 48 ≤ c && c ≤ 57

def natPrintAux : Nat → Nat → List Nat
  | 0, _ => []
  | fuel+1, n => if n < 10 then [48 + n] else natPrintAux fuel (n / 10) ++ [48 + n % 10]

/-- Decimal digit characters of `n`, most significant first. -/
def natPrint (n : Nat) : List Nat := natPrintAux (n + 1) n

def readDigits (l : List Nat) : Nat := l.foldl (fun a c => a * 10 + (c - 48)) 0

theorem readDigits_foldl (l : List Nat) (a : Nat) :
    l.foldl (fun a c => a * 10 + (c - 48)) a = a * 10 ^ l.length + readDigits l := by
  induction l generalizing a with
  | nil => simp [readDigits]
  | cons c t ih =>
    have h1 : readDigits (c :: t) = (c - 48) * 10 ^ t.length + readDigits t := by
      simp only [readDigits, List.foldl_cons]
      rw [ih (0 * 10 + (c - 48))]
      simp [readDigits]
    rw [List.foldl_cons, ih (a * 10 + (c - 48)), h1, List.length_cons, pow_succ]
    ring

theorem readDigits_append (l r : List Nat) :
    readDigits (l ++ r) = readDigits l * 10 ^ r.length + readDigits r := by
  simp only [readDigits, List.foldl_append]
  rw [readDigits_foldl]
  rfl

theorem readDigits_replicate_zero (n : Nat) : readDigits (List.replicate n 48) = 0 := by
  induction n with
  | zero => rfl
  | succ k ih =>
    have : List.replicate (k+1) 48 = List.replicate k 48 ++ [48] := by
      rw [List.replicate_succ' (α := Nat)]
    rw [this, readDigits_append, ih]
    rfl

theorem natPrintAux_read : ∀ (fuel n : Nat), n < 10 ^ fuel →
    readDigits (natPrintAux fuel n) = n := by
  intro fuel
  induction fuel with
  | zero =>
    intro n h
    simp only [pow_zero, Nat.lt_one_iff] at h
    subst h; rfl
  | succ f ih =>
    intro n h
    rw [natPrintAux]
    by_cases hn : n < 10
    · simp only [if_pos hn]
      simp [readDigits]
    · simp only [if_neg hn]
      rw [readDigits_append, ih (n / 10) (by
        rw [Nat.div_lt_iff_lt_mul (by norm_num)]
        rw [pow_succ] at h
        omega)]
      simp only [List.length_cons, List.length_nil, pow_one]
      have h10 : n % 10 < 10 := Nat.mod_lt _ (by norm_num)
      have : readDigits [48 + n % 10] = n % 10 := by simp [readDigits]
      rw [this]
      omega

theorem nat_lt_ten_pow_succ (n : Nat) : n < 10 ^ (n + 1) :=
  lt_of_lt_of_le (Nat.lt_pow_self (by norm_num) n)
    (Nat.pow_le_pow_right (by norm_num) (by omega))

theorem natPrint_read (n : Nat) : readDigits (natPrint n) = n :=
  natPrintAux_read (n + 1) n (nat_lt_ten_pow_succ n)

theorem natPrintAux_all_digits : ∀ (fuel n : Nat),
    (natPrintAux fuel n).all isDigitB = true := by
  intro fuel
  induction fuel with
  | zero => intro n; rfl
  | succ f ih =>
    intro n
    rw [natPrintAux]
    by_cases hn : n < 10
    · simp only [if_pos hn, List.all_cons, List.all_nil, Bool.and_true]
      simp [isDigitB]; omega
    · simp only [if_neg hn, List.all_append, ih]
      have h10 : n % 10 < 10 := Nat.mod_lt _ (by norm_num)
      simp [isDigitB]; omega

theorem natPrint_all_digits (n : Nat) : (natPrint n).all isDigitB = true :=
  natPrintAux_all_digits (n + 1) n

theorem natPrintAux_ne_nil (fuel n : Nat) (h : 0 < fuel) : natPrintAux fuel n ≠ [] := by
  cases fuel with
  | zero => omega
  | succ f =>
    rw [natPrintAux]
    by_cases hn : n < 10
    · simp [if_pos hn]
    · simp [if_neg hn]

theorem natPrint_ne_nil (n : Nat) : natPrint n ≠ [] :=
  natPrintAux_ne_nil (n + 1) n (by omega)

theorem natPrintAux_length : ∀ (fuel n : Nat), n < 10 ^ fuel →
    (natPrintAux fuel n).length ≤ fuel := by
  intro fuel
  induction fuel with
  | zero => intro n h; simp [natPrintAux]
  | succ f ih =>
    intro n h
    rw [natPrintAux]
    by_cases hn : n < 10
    · simp [if_pos hn]
    · simp only [if_neg hn, List.length_append, List.length_cons, List.length_nil]
      have := ih (n / 10) (by
        rw [Nat.div_lt_iff_lt_mul (by norm_num)]
        rw [pow_succ] at h
        omega)
      omega

/-- The most significant digit of a positive number is not the zero digit. -/
theorem natPrintAux_head_ne_zero : ∀ (fuel n : Nat), 1 ≤ n → n < 10 ^ fuel →
    (natPrintAux fuel n).head? ≠ some 48 := by
  intro fuel
  induction fuel with
  | zero => intro n h1 h2; exact absurd h2 (by norm_num; omega)
  | succ f ih =>
    intro n hn hbound
    rw [natPrintAux]
    by_cases h10 : n < 10
    · simp only [if_pos h10, List.head?_cons]
      intro hc
      have : 48 + n = 48 := by injection hc
      omega
    · simp only [if_neg h10]
      have hf : 1 ≤ f := by
        by_contra hc
        have : f = 0 := by omega
        subst this
        norm_num at hbound
        omega
      have hne : natPrintAux f (n / 10) ≠ [] := natPrintAux_ne_nil _ _ (by omega)
      rw [List.head?_append_of_ne_nil _ hne]
      refine ih (n / 10) (by omega) ?_
      rw [Nat.div_lt_iff_lt_mul (by norm_num)]
      rw [pow_succ] at hbound
      omega

/-! ## Scanning helpers -/

theorem takeWhile_append_of_all {p : Nat → Bool} (l r : List Nat) (h : l.all p = true) :
    (l ++ r).takeWhile p = l ++ r.takeWhile p := by
  induction l with
  | nil => simp
  | cons c t ih =>
    simp only [List.all_cons, Bool.and_eq_true] at h
    simp [List.takeWhile_cons, h.1, ih h.2]

theorem dropWhile_append_of_all {p : Nat → Bool} (l r : List Nat) (h : l.all p = true) :
    (l ++ r).dropWhile p = r.dropWhile p := by
  induction l with
  | nil => simp
  | cons c t ih =>
    simp only [List.all_cons, Bool.and_eq_true] at h
    simp [List.dropWhile_cons, h.1, ih h.2]

theorem takeWhile_cons_of_neg {p : Nat → Bool} (c : Nat) (t : List Nat) (h : p c = false) :
    (c :: t).takeWhile p = [] := by
  simp [List.takeWhile_cons, h]

theorem dropWhile_cons_of_neg {p : Nat → Bool} (c : Nat) (t : List Nat) (h : p c = false) :
    (c :: t).dropWhile p = c :: t := by
  simp [List.dropWhile_cons, h]

/-! ## Number printing (model of JavaScript number-to-string for the
decimal values occurring here: plain decimal notation) -/

def jnumPrintMag (n e : Nat) : List Nat :=
  if e = 0 then natPrint n
  else
    natPrint (n / 10 ^ e) ++
      46 :: (List.replicate (e - (natPrint (n % 10 ^ e)).length) 48 ++ natPrint (n % 10 ^ e))

def JNumber.print (q : JNumber) : List Nat :=
  if q.man < 0 then 45 :: jnumPrintMag q.man.natAbs q.exp
  else jnumPrintMag q.man.natAbs q.exp

/-! ## Number parsing -/

/-- Digit characters, a dot, or an exponent marker: the characters that
would extend a decimal literal. -/
def numContinuer (c : Nat) : Bool := isDigitB c || c = 46 || c = 101 || c = 69

/-- Assemble a parsed decimal literal: optional sign, the concatenated
integer-and-fraction digits, the fraction length, the exponent value. -/
def mkJNumber (neg : Bool) (intfrac : Nat) (fracLen : Nat) (expVal : Int) : JNumber :=
  let net : Int := expVal - fracLen
  let mag : JNumber :=
    if 0 ≤ net then ⟨(intfrac : Int) * 10 ^ net.toNat, 0⟩
    else ⟨(intfrac : Int), (-net).toNat⟩
  let signed : JNumber := if neg then ⟨-mag.man, mag.exp⟩ else mag
  signed.norm

/-- Optional sign at the head of a numeric scan. -/
def parseSign (signChar : Nat) (s : List Nat) : Bool × List Nat :=
  match s with
  | c :: t => if c = signChar then (true, t) else (false, c :: t)
  | [] => (false, [])

/-- Optional plus-or-minus at the head of an exponent scan: the flag
records a minus. -/
def parseExpSign (s : List Nat) : Bool × List Nat :=
  match s with
  | c :: t => if c = 45 then (true, t) else if c = 43 then (false, t) else (false, c :: t)
  | [] => (false, [])

/-- Exponent-and-end step of the JSON number grammar: after the digits,
an exponent part must be well formed if present. -/
def parseJsonNumFinish (neg : Bool) (digits : List Nat) (fracLen : Nat) (s : List Nat) :
    Option (JNumber × List Nat) :=
  match s with
  | c :: t =>
    if c = 101 || c = 69 then
      let su := parseExpSign t
      let es := su.2.takeWhile isDigitB
      if es = [] then none
      else
        let ev : Int := if su.1 then -(readDigits es : Int) else (readDigits es : Int)
        some (mkJNumber neg (readDigits digits) fracLen ev, su.2.dropWhile isDigitB)
    else some (mkJNumber neg (readDigits digits) fracLen 0, c :: t)
  | [] => some (mkJNumber neg (readDigits digits) fracLen 0, [])

/-- JSON number grammar: optional minus, integer digits without a
leading zero, optional fraction, optional exponent. -/
def parseJsonNumber (s : List Nat) : Option (JNumber × List Nat) :=
  let sg := parseSign 45 s
  let ds := sg.2.takeWhile isDigitB
  let s2 := sg.2.dropWhile isDigitB
  if ds = [] then none
  else if 1 < ds.length ∧ ds.head? = some 48 then none
  else
    match s2 with
    | c :: t =>
      if c = 46 then
        let fs := t.takeWhile isDigitB
        if fs = [] then none
        else parseJsonNumFinish sg.1 (ds ++ fs) fs.length (t.dropWhile isDigitB)
      else parseJsonNumFinish sg.1 ds 0 (c :: t)
    | [] => parseJsonNumFinish sg.1 ds 0 []

/-- White space recognized by JavaScript trimming and number coercion. -/
def isJsWs (c : Nat) : Bool :=
  c = 32 || (9 ≤ c && c ≤ 13) || c = 160 || c = 65279 || c = 5760 ||
  (8192 ≤ c && c ≤ 8202) || c = 8232 || c = 8233 || c = 8239 || c = 8287 || c = 12288

def trimJs (s : List Nat) : List Nat :=
  ((s.dropWhile isJsWs).reverse.dropWhile isJsWs).reverse

/-- Exponent part for parseFloat: unlike JSON, a malformed exponent is
ignored rather than an error. -/
def parseFloatExp (s : List Nat) : Int :=
  match s with
  | c :: t =>
    if c = 101 || c = 69 then
      let su := parseExpSign t
      let es := su.2.takeWhile isDigitB
      if es = [] then 0
      else if su.1 then -(readDigits es : Int) else (readDigits es : Int)
    else 0
  | [] => 0

def parseFloatTail (s1 : List Nat) (neg : Bool) : Option JNumber :=
  let ds := s1.takeWhile isDigitB
  let s2 := s1.dropWhile isDigitB
  let fp : List Nat × List Nat :=
    match s2 with
    | c :: t =>
      if c = 46 then (t.takeWhile isDigitB, t.dropWhile isDigitB) else ([], c :: t)
    | [] => ([], [])
  if ds = [] ∧ fp.1 = [] then none
  else some (mkJNumber neg (readDigits (ds ++ fp.1)) fp.1.length (parseFloatExp fp.2))

/-- Model of JavaScript parseFloat: leading white space and sign, then
the longest decimal-literal prefix; trailing junk is ignored; returns
none when no digits at all are found (NaN). The Infinity literal is not
modelled (it never arises in the inputs considered here). -/
def parseFloatJS (s : List Nat) : Option JNumber :=
  let s0 := (s.dropWhile isJsWs)
  let mi := parseSign 45 s0
  if mi.1 then parseFloatTail mi.2 true
  else parseFloatTail (parseSign 43 s0).2 false

/-! ## Number printing and parsing round trip -/

theorem natPrintAux_fuel_irrel : ∀ (f1 f2 n : Nat), 1 ≤ f1 → 1 ≤ f2 →
    n < 10 ^ f1 → n < 10 ^ f2 → natPrintAux f1 n = natPrintAux f2 n := by
  intro f1
  induction f1 with
  | zero => intro f2 n h1; omega
  | succ g ih =>
    intro f2 n _ hf2 hb1 hb2
    cases f2 with
    | zero => omega
    | succ g2 =>
      rw [natPrintAux, natPrintAux]
      by_cases hn : n < 10
      · simp only [if_pos hn]
      · simp only [if_neg hn]
        have hg : 1 ≤ g := by
          by_contra hcon
          have : g = 0 := by omega
          subst this
          norm_num at hb1
          omega
        have hg2 : 1 ≤ g2 := by
          by_contra hcon
          have : g2 = 0 := by omega
          subst this
          norm_num at hb2
          omega
        rw [ih g2 (n / 10) hg hg2
          (by rw [Nat.div_lt_iff_lt_mul (by norm_num)]; rw [pow_succ] at hb1; omega)
          (by rw [Nat.div_lt_iff_lt_mul (by norm_num)]; rw [pow_succ] at hb2; omega)]

theorem natPrint_length_le (n k : Nat) (h : n < 10 ^ k) (hk : 1 ≤ k) :
    (natPrint n).length ≤ k := by
  rw [natPrint, natPrintAux_fuel_irrel (n + 1) k n (by omega) hk (nat_lt_ten_pow_succ n) h]
  exact natPrintAux_length k n h

theorem natPrint_lt_ten (n : Nat) (h : n < 10) : natPrint n = [48 + n] := by
  simp [natPrint, natPrintAux, h]

theorem natPrint_no_leading_zero (n : Nat) :
    ¬ (1 < (natPrint n).length ∧ (natPrint n).head? = some 48) := by
  by_cases hn : n < 10
  · rw [natPrint_lt_ten n hn]
    intro h
    simp at h
  · intro h
    exact natPrintAux_head_ne_zero (n + 1) n (by omega) (nat_lt_ten_pow_succ n) h.2

theorem all_head {p : Nat → Bool} (l : List Nat) (c : Nat) (h : l.all p = true)
    (hh : l.head? = some c) : p c = true := by
  cases l with
  | nil => simp at hh
  | cons d t =>
    simp only [List.head?_cons, Option.some.injEq] at hh
    subst hh
    simp only [List.all_cons, Bool.and_eq_true] at h
    exact h.1

theorem parseSign_no (sc : Nat) (l : List Nat) (h : ∀ c, l.head? = some c → c ≠ sc) :
    parseSign sc l = (false, l) := by
  cases l with
  | nil => rfl
  | cons c t => simp [parseSign, h c rfl]

theorem head_append_print (n : Nat) (r : List Nat) :
    ((natPrint n) ++ r).head? = (natPrint n).head? := by
  exact List.head?_append_of_ne_nil _ (natPrint_ne_nil n)

theorem head_print_digit (n : Nat) (c : Nat) (h : ((natPrint n) ++ r).head? = some c) :
    isDigitB c = true := by
  rw [head_append_print] at h
  exact all_head (natPrint n) c (natPrint_all_digits n) h

/-- The character after the end of a printed literal would not extend a
decimal literal. -/
def stopsNumB (rest : List Nat) : Bool :=
  match rest with
  | [] => true
  | c :: _ => ! numContinuer c

theorem stops_head (rest : List Nat) (c : Nat) (hs : stopsNumB rest = true)
    (hh : rest.head? = some c) : numContinuer c = false := by
  cases rest with
  | nil => simp at hh
  | cons d t =>
    simp only [List.head?_cons, Option.some.injEq] at hh
    subst hh
    simpa [stopsNumB] using hs

theorem stops_takeWhile (rest : List Nat) (hs : stopsNumB rest = true) :
    rest.takeWhile isDigitB = [] := by
  cases rest with
  | nil => rfl
  | cons c t =>
    have := stops_head (c :: t) c hs rfl
    simp only [numContinuer, Bool.or_eq_false_iff] at this
    exact takeWhile_cons_of_neg c t this.1.1.1

theorem stops_dropWhile (rest : List Nat) (hs : stopsNumB rest = true) :
    rest.dropWhile isDigitB = rest := by
  cases rest with
  | nil => rfl
  | cons c t =>
    have := stops_head (c :: t) c hs rfl
    simp only [numContinuer, Bool.or_eq_false_iff] at this
    exact dropWhile_cons_of_neg c t this.1.1.1

theorem replicate_all_digits (k : Nat) : (List.replicate k 48).all isDigitB = true := by
  rw [List.all_eq_true]
  intro x hx
  rw [List.eq_of_mem_replicate hx]
  rfl

theorem mkJNumber_no_exp (neg : Bool) (f k : Nat) :
    mkJNumber neg f k 0 = JNumber.norm ⟨if neg then -(f : Int) else (f : Int), k⟩ := by
  cases k with
  | zero =>
    cases neg <;> simp [mkJNumber, JNumber.norm]
  | succ j =>
    have hneg : ¬ (0 : Int) ≤ 0 - ((j : Nat) + 1 : Nat) := by
      push_cast
      omega
    cases neg <;>
      simp only [mkJNumber, hneg, if_false, if_true, Bool.false_eq_true, JNumber.norm] <;>
      norm_num

theorem jnumPrintMag_head_digit (n e : Nat) (r : List Nat) (c : Nat)
    (h : (jnumPrintMag n e ++ r).head? = some c) : isDigitB c = true := by
  unfold jnumPrintMag at h
  by_cases he : e = 0
  · rw [if_pos he] at h
    exact head_print_digit n c h
  · rw [if_neg he, List.append_assoc] at h
    exact head_print_digit _ c h

theorem parseJsonNumFinish_stops (neg : Bool) (digits : List Nat) (fracLen : Nat)
    (rest : List Nat) (hstop : stopsNumB rest = true) :
    parseJsonNumFinish neg digits fracLen rest =
      some (mkJNumber neg (readDigits digits) fracLen 0, rest) := by
  cases rest with
  | nil => rfl
  | cons c t =>
    have hnc := stops_head (c :: t) c hstop rfl
    simp only [numContinuer, Bool.or_eq_false_iff] at hnc
    have h101 : ¬ c = 101 := by
      have := hnc.1.2
      simpa using this
    have h69 : ¬ c = 69 := by
      have := hnc.2
      simpa using this
    simp only [parseJsonNumFinish]
    rw [if_neg (by simp [h101, h69])]

theorem parseJsonNumber_print_mag (n e : Nat) (neg : Bool) (rest : List Nat)
    (hstop : stopsNumB rest = true) :
    parseJsonNumber ((if neg then [45] else []) ++ (jnumPrintMag n e ++ rest)) =
      some (JNumber.norm ⟨if neg then -(n : Int) else (n : Int), e⟩, rest) := by
  have hsign : parseSign 45 ((if neg then [45] else []) ++ (jnumPrintMag n e ++ rest)) =
      (neg, jnumPrintMag n e ++ rest) := by
    cases neg
    · simp only [Bool.false_eq_true, if_false, List.nil_append]
      apply parseSign_no
      intro c hc hc45
      have := jnumPrintMag_head_digit n e rest c hc
      subst hc45
      simp [isDigitB] at this
    · simp [parseSign]
  by_cases he : e = 0
  · subst he
    have hmag : jnumPrintMag n 0 = natPrint n := by simp [jnumPrintMag]
    rw [hmag] at hsign
    simp only [parseJsonNumber, hsign, hmag]
    rw [takeWhile_append_of_all _ _ (natPrint_all_digits n), stops_takeWhile rest hstop,
      List.append_nil, dropWhile_append_of_all _ _ (natPrint_all_digits n),
      stops_dropWhile rest hstop]
    rw [if_neg (natPrint_ne_nil n), if_neg (natPrint_no_leading_zero n)]
    cases rest with
    | nil =>
      rw [parseJsonNumFinish_stops _ _ _ _ (by rfl), natPrint_read, mkJNumber_no_exp]
    | cons c t =>
      have hnc := stops_head (c :: t) c hstop rfl
      have h46 : ¬ c = 46 := by
        simp only [numContinuer, Bool.or_eq_false_iff] at hnc
        simpa using hnc.1.1.2
      simp only []
      rw [if_neg h46, parseJsonNumFinish_stops _ _ _ _ hstop, natPrint_read, mkJNumber_no_exp]
  · have he1 : 1 ≤ e := by omega
    have hfplt : n % 10 ^ e < 10 ^ e := Nat.mod_lt _ (by positivity)
    have hlen : (natPrint (n % 10 ^ e)).length ≤ e := natPrint_length_le _ _ hfplt he1
    have hmag : jnumPrintMag n e ++ rest =
        natPrint (n / 10 ^ e) ++
          (46 :: (List.replicate (e - (natPrint (n % 10 ^ e)).length) 48 ++
            (natPrint (n % 10 ^ e) ++ rest))) := by
      simp [jnumPrintMag, he, List.append_assoc]
    rw [hmag] at hsign
    simp only [parseJsonNumber]
    rw [hmag, hsign]
    rw [takeWhile_append_of_all _ _ (natPrint_all_digits _),
      takeWhile_cons_of_neg _ _ (by decide), List.append_nil,
      dropWhile_append_of_all _ _ (natPrint_all_digits _),
      dropWhile_cons_of_neg _ _ (by decide)]
    rw [if_neg (natPrint_ne_nil _), if_neg (natPrint_no_leading_zero _)]
    simp only [if_true]
    rw [takeWhile_append_of_all _ _ (replicate_all_digits _),
      takeWhile_append_of_all _ _ (natPrint_all_digits _), stops_takeWhile rest hstop,
      List.append_nil]
    rw [dropWhile_append_of_all _ _ (replicate_all_digits _),
      dropWhile_append_of_all _ _ (natPrint_all_digits _), stops_dropWhile rest hstop]
    have hfs_ne : ¬ (List.replicate (e - (natPrint (n % 10 ^ e)).length) 48 ++
        natPrint (n % 10 ^ e) = []) := by
      intro hcontra
      exact natPrint_ne_nil _ (List.append_eq_nil.mp hcontra).2
    rw [if_neg hfs_ne, parseJsonNumFinish_stops _ _ _ _ hstop]
    have hflen : (List.replicate (e - (natPrint (n % 10 ^ e)).length) 48 ++
        natPrint (n % 10 ^ e)).length = e := by
      simp only [List.length_append, List.length_replicate]
      omega
    have hread : readDigits (natPrint (n / 10 ^ e) ++
        (List.replicate (e - (natPrint (n % 10 ^ e)).length) 48 ++
          natPrint (n % 10 ^ e))) = n := by
      rw [readDigits_append, readDigits_append, readDigits_replicate_zero, natPrint_read,
        natPrint_read, hflen]
      simp only [zero_mul, zero_add]
      rw [Nat.mul_comm (n / 10 ^ e) (10 ^ e)]
      exact Nat.div_add_mod n (10 ^ e)
    rw [hread, hflen, mkJNumber_no_exp]

theorem parseJsonNumber_roundtrip (q : JNumber) (hc : q.canonical = true) (rest : List Nat)
    (hstop : stopsNumB rest = true) :
    parseJsonNumber (q.print ++ rest) = some (q, rest) := by
  have hq : q.print ++ rest =
      (if decide (q.man < 0) = true then [45] else []) ++
        (jnumPrintMag q.man.natAbs q.exp ++ rest) := by
    simp only [JNumber.print]
    by_cases hm : q.man < 0 <;> simp [hm]
  rw [hq, parseJsonNumber_print_mag _ _ _ _ hstop]
  have hsgn : (if decide (q.man < 0) = true then -(q.man.natAbs : Int)
      else (q.man.natAbs : Int)) = q.man := by
    have habs := Int.natAbs_eq q.man
    by_cases hm : q.man < 0
    · rw [if_pos (by simpa using hm)]
      rcases habs with h | h <;> omega
    · rw [if_neg (by simpa using hm)]
      rcases habs with h | h <;> omega
  rw [hsgn]
  have h2 : JNumber.norm ⟨q.man, q.exp⟩ = q := JNumber.norm_of_canonical q hc
  rw [h2]

/-! ## JSON values: the model of parsed JavaScript data -/

mutual
inductive JsonValue where
  | jnull
  | jbool (b : Bool)
  | jnum (q : JNumber)
  | jstr (s : List Nat)
  | jarr (xs : JsonArr)
  | jobj (ms : JsonObj)
deriving DecidableEq, Repr
inductive JsonArr where
  | nil
  | cons (v : JsonValue) (rest : JsonArr)
deriving DecidableEq, Repr
inductive JsonObj where
  | nil
  | cons (k : List Nat) (v : JsonValue) (rest : JsonObj)
deriving DecidableEq, Repr
end

def JsonObj.find : JsonObj → List Nat → Option JsonValue
  | .nil, _ => none
  | .cons k v r, key => if k = key then some v else JsonObj.find r key

/-- JavaScript property read `obj[k]`: `none` models undefined; a
present null field gives `some jnull`. Non-objects have none of the
properties considered here. -/
def getField (v : JsonValue) (k : List Nat) : Option JsonValue :=
  match v with
  | .jobj ms => JsonObj.find ms k
  | _ => none

/-- JavaScript property write on an object: replace in place when the
key is present, otherwise append the new member at the end. -/
def JsonObj.setKey : JsonObj → List Nat → JsonValue → JsonObj
  | .nil, key, v => .cons key v .nil
  | .cons k w r, key, v =>
    if k = key then .cons k v r else .cons k w (JsonObj.setKey r key v)

def JsonObj.hasKey : JsonObj → List Nat → Bool
  | .nil, _ => false
  | .cons k _ r, key => decide (k = key) || JsonObj.hasKey r key

/-- JavaScript truthiness of a parsed JSON value. -/
def jsTruthy (v : JsonValue) : Bool :=
  match v with
  | .jnull => false
  | .jbool b => b
  | .jnum q => decide (q.man ≠ 0)
  | .jstr s => decide (s ≠ [])
  | .jarr _ => true
  | .jobj _ => true

mutual
/-- JavaScript string coercion of a parsed JSON value. -/
def jsToString : JsonValue → List Nat
  | .jnull => strCodes ("null")
  | .jbool true => strCodes ("true")
  | .jbool false => strCodes ("false")
  | .jnum q => q.print
  | .jstr s => s
  | .jarr xs => jsArrToString xs
  | .jobj _ => strCodes ("[object Object]")
/-- Array.prototype.join with comma: null elements become empty. -/
def jsArrToString : JsonArr → List Nat
  | .nil => []
  | .cons v .nil => if v = .jnull then [] else jsToString v
  | .cons v r => (if v = .jnull then [] else jsToString v) ++ 44 :: jsArrToString r
end

/-- Strict full-string numeric literal: exponent-and-end step. -/
def numStrictFinish (intfrac : Nat) (fracLen : Nat) (neg : Bool) (s : List Nat) :
    Option JNumber :=
  match s with
  | [] => some (mkJNumber neg intfrac fracLen 0)
  | c :: t =>
    if c = 101 || c = 69 then
      let su := parseExpSign t
      let es := su.2.takeWhile isDigitB
      if es = [] then none
      else if su.2.dropWhile isDigitB = [] then
        some (mkJNumber neg intfrac fracLen
          (if su.1 then -(readDigits es : Int) else (readDigits es : Int)))
      else none
    else none

def numStrictTail (s1 : List Nat) (neg : Bool) : Option JNumber :=
  let ds := s1.takeWhile isDigitB
  match s1.dropWhile isDigitB with
  | c :: t =>
    if c = 46 then
      let fs := t.takeWhile isDigitB
      if ds = [] ∧ fs = [] then none
      else numStrictFinish (readDigits (ds ++ fs)) fs.length neg (t.dropWhile isDigitB)
    else if ds = [] then none else numStrictFinish (readDigits ds) 0 neg (c :: t)
  | [] => if ds = [] then none else numStrictFinish (readDigits ds) 0 neg []

/-- Number(string): trimmed; empty means zero; otherwise the whole
string must be one decimal literal (hex and Infinity forms are not
modelled; they never arise in the inputs considered). -/
def numOfString (s : List Nat) : Option JNumber :=
  let t := trimJs s
  if t = [] then some ⟨0, 0⟩
  else
    let mi := parseSign 45 t
    if mi.1 then numStrictTail mi.2 true
    else numStrictTail (parseSign 43 t).2 false

/-- JavaScript Number() coercion of a parsed JSON value; `none` models
NaN. -/
def jsToNumber (v : JsonValue) : Option JNumber :=
  match v with
  | .jnull => some ⟨0, 0⟩
  | .jbool b => some (if b then ⟨1, 0⟩ else ⟨0, 0⟩)
  | .jnum q => some q
  | .jstr s => numOfString s
  | .jarr xs => numOfString (jsArrToString xs)
  | .jobj _ => none

/-- Split a string at commas, keeping empty pieces, as String.split
does. -/
def splitComma (s : List Nat) : List (List Nat) :=
  match s with
  | [] => [[]]
  | c :: t =>
    if c = 44 then [] :: splitComma t
    else
      match splitComma t with
      | h :: r => (c :: h) :: r
      | [] => [[c]]

def validScalar (c : Nat) : Bool :=
  decide (c < 55296) || (decide (57344 ≤ c) && decide (c < 1114112))

def strWf (s : List Nat) : Bool := s.all validScalar

mutual
/-- Well-formedness: the value is the image of a real JavaScript JSON
value (canonical numbers, scalar-valued strings, no duplicate keys). -/
def JsonValue.wf : JsonValue → Bool
  | .jnull => true
  | .jbool _ => true
  | .jnum q => q.canonical
  | .jstr s => strWf s
  | .jarr xs => JsonArr.wf xs
  | .jobj ms => JsonObj.wf ms
def JsonArr.wf : JsonArr → Bool
  | .nil => true
  | .cons v r => JsonValue.wf v && JsonArr.wf r
def JsonObj.wf : JsonObj → Bool
  | .nil => true
  | .cons k v r =>
    strWf k && JsonValue.wf v && JsonObj.wf r && ! (JsonObj.hasKey r k)
end

/-! ## JSON serialization (the test-side construction of §8: plain
canonical JSON text, every non-printable or non-ASCII character
escaped) -/

def hexDigit (d : Nat) : Nat := if d < 10 then 48 + d else 87 + d

def hex4 (n : Nat) : List Nat :=
  [hexDigit (n / 4096 % 16), hexDigit (n / 256 % 16), hexDigit (n / 16 % 16), hexDigit (n % 16)]

def escChar (c : Nat) : List Nat :=
  if c = 34 then [92, 34]
  else if c = 92 then [92, 92]
  else if c = 8 then [92, 98]
  else if c = 9 then [92, 116]
  else if c = 10 then [92, 110]
  else if c = 12 then [92, 102]
  else if c = 13 then [92, 114]
  else if c < 32 then 92 :: 117 :: hex4 c
  else if c < 127 then [c]
  else if c < 65536 then 92 :: 117 :: hex4 c
  else
    (92 :: 117 :: hex4 (55296 + (c - 65536) / 1024)) ++
      (92 :: 117 :: hex4 (56320 + (c - 65536) % 1024))

def escStr : List Nat → List Nat
  | [] => []
  | c :: t => escChar c ++ escStr t

mutual
def stringify : JsonValue → List Nat
  | .jnull => strCodes ("null")
  | .jbool true => strCodes ("true")
  | .jbool false => strCodes ("false")
  | .jnum q => q.print
  | .jstr s => 34 :: (escStr s ++ [34])
  | .jarr xs => 91 :: (stringifyArr xs ++ [93])
  | .jobj ms => 123 :: (stringifyObj ms ++ [125])
def stringifyArr : JsonArr → List Nat
  | .nil => []
  | .cons v .nil => stringify v
  | .cons v (.cons w r) => stringify v ++ 44 :: stringifyArr (.cons w r)
def stringifyObj : JsonObj → List Nat
  | .nil => []
  | .cons k v .nil => 34 :: (escStr k ++ [34]) ++ 58 :: stringify v
  | .cons k v (.cons k2 w r) =>
    34 :: (escStr k ++ [34]) ++ 58 :: (stringify v ++ 44 :: stringifyObj (.cons k2 w r))
end

/-! ## JSON parsing (model of JSON.parse) -/

def isJsonWs (c : Nat) : Bool := c = 32 || c = 9 || c = 10 || c = 13

def skipWsJson (s : List Nat) : List Nat := s.dropWhile isJsonWs

def hexVal (c : Nat) : Option Nat :=
  if 48 ≤ c ∧ c ≤ 57 then some (c - 48)
  else if 97 ≤ c ∧ c ≤ 102 then some (c - 87)
  else if 65 ≤ c ∧ c ≤ 70 then some (c - 55)
  else none

def parseHex4 (s : List Nat) : Option (Nat × List Nat) :=
  match s with
  | a :: b :: c :: d :: t =>
    match hexVal a, hexVal b, hexVal c, hexVal d with
    | some x, some y, some z, some w => some (x * 4096 + y * 256 + z * 16 + w, t)
    | _, _, _, _ => none
  | _ => none

def consStr (c : Nat) (r : Option (List Nat × List Nat)) : Option (List Nat × List Nat) :=
  match r with
  | some (s, rest) => some (c :: s, rest)
  | none => none

mutual
/-- Characters of a JSON string after the opening quote, unescaping as
JSON.parse does, including surrogate-pair recombination. -/
def parseStrChars : Nat → List Nat → Option (List Nat × List Nat)
  | 0, _ => none
  | _+1, [] => none
  | fuel+1, c :: t =>
    if c = 34 then some ([], t)
    else if c = 92 then parseEsc fuel t
    else if c < 32 then none
    else consStr c (parseStrChars fuel t)
termination_by fuel _ => 5 * fuel
decreasing_by all_goals omega
/-- The character after a backslash. -/
def parseEsc : Nat → List Nat → Option (List Nat × List Nat)
  | _, [] => none
  | fuel, e :: u =>
    if e = 34 then consStr 34 (parseStrChars fuel u)
    else if e = 92 then consStr 92 (parseStrChars fuel u)
    else if e = 47 then consStr 47 (parseStrChars fuel u)
    else if e = 98 then consStr 8 (parseStrChars fuel u)
    else if e = 102 then consStr 12 (parseStrChars fuel u)
    else if e = 110 then consStr 10 (parseStrChars fuel u)
    else if e = 114 then consStr 13 (parseStrChars fuel u)
    else if e = 116 then consStr 9 (parseStrChars fuel u)
    else if e = 117 then parseU fuel (parseHex4 u)
    else none
termination_by fuel _ => 5 * fuel + 4
decreasing_by all_goals omega
/-- After reading a 4-digit escape: recombine a surrogate pair when a
high surrogate is followed by a low one. -/
def parseU : Nat → Option (Nat × List Nat) → Option (List Nat × List Nat)
  | _, none => none
  | fuel, some (h, u2) =>
    if 55296 ≤ h ∧ h < 56320 then parseLow fuel h u2
    else consStr h (parseStrChars fuel u2)
termination_by fuel _ => 5 * fuel + 3
decreasing_by all_goals omega
def parseLow : Nat → Nat → List Nat → Option (List Nat × List Nat)
  | fuel, h, 92 :: 117 :: u3 => parseLow2 fuel h u3 (parseHex4 u3)
  | fuel, h, u2 => consStr h (parseStrChars fuel u2)
termination_by fuel _ _ => 5 * fuel + 2
decreasing_by all_goals omega
def parseLow2 : Nat → Nat → List Nat → Option (Nat × List Nat) →
    Option (List Nat × List Nat)
  | fuel, h, u3, none => consStr h (parseStrChars fuel (92 :: 117 :: u3))
  | fuel, h, u3, some (l, u4) =>
    if 56320 ≤ l ∧ l < 57344 then
      consStr (65536 + (h - 55296) * 1024 + (l - 56320)) (parseStrChars fuel u4)
    else consStr h (parseStrChars fuel (92 :: 117 :: u3))
termination_by fuel _ _ _ => 5 * fuel + 1
decreasing_by all_goals omega
end

def parseJsonString (s : List Nat) : Option (List Nat × List Nat) :=
  parseStrChars (s.length + 1) s


def litNull : List Nat → Option (JsonValue × List Nat)
  | 117 :: 108 :: 108 :: u => some (.jnull, u)
  | _ => none

def litTrue : List Nat → Option (JsonValue × List Nat)
  | 114 :: 117 :: 101 :: u => some (.jbool true, u)
  | _ => none

def litFalse : List Nat → Option (JsonValue × List Nat)
  | 97 :: 108 :: 115 :: 101 :: u => some (.jbool false, u)
  | _ => none

def mkNum : Option (JNumber × List Nat) → Option (JsonValue × List Nat)
  | some (q, rest) => some (.jnum q, rest)
  | none => none

def mkStr : Option (List Nat × List Nat) → Option (JsonValue × List Nat)
  | some (s, rest) => some (.jstr s, rest)
  | none => none

def mkArr : Option (JsonArr × List Nat) → Option (JsonValue × List Nat)
  | some (xs, rest) => some (.jarr xs, rest)
  | none => none

def mkObj : Option (JsonObj × List Nat) → Option (JsonValue × List Nat)
  | some (ms, rest) => some (.jobj ms, rest)
  | none => none

def mkArrCons (v : JsonValue) : Option (JsonArr × List Nat) → Option (JsonArr × List Nat)
  | some (xs, rest) => some (.cons v xs, rest)
  | none => none

def mkObjCons (k : List Nat) (v : JsonValue) :
    Option (JsonObj × List Nat) → Option (JsonObj × List Nat)
  | some (ms, rest) => some (.cons k v ms, rest)
  | none => none

mutual
def parseVal : Nat → List Nat → Option (JsonValue × List Nat)
  | 0, _ => none
  | fuel+1, s => parseValCore fuel (skipWsJson s)
termination_by fuel _ => 20 * fuel
decreasing_by all_goals omega
def parseValCore : Nat → List Nat → Option (JsonValue × List Nat)
  | _, [] => none
  | fuel, c :: t =>
    if c = 110 then litNull t
    else if c = 116 then litTrue t
    else if c = 102 then litFalse t
    else if c = 34 then mkStr (parseJsonString t)
    else if c = 91 then arrStart fuel (skipWsJson t)
    else if c = 123 then objStart fuel (skipWsJson t)
    else mkNum (parseJsonNumber (c :: t))
termination_by fuel _ => 20 * fuel + 19
decreasing_by all_goals omega
def arrStart : Nat → List Nat → Option (JsonValue × List Nat)
  | _, [] => none
  | fuel, d :: u =>
    if d = 93 then some (.jarr .nil, u)
    else mkArr (parseArrElems fuel (d :: u))
termination_by fuel _ => 20 * fuel + 18
decreasing_by all_goals omega
def objStart : Nat → List Nat → Option (JsonValue × List Nat)
  | _, [] => none
  | fuel, d :: u =>
    if d = 125 then some (.jobj .nil, u)
    else mkObj (parseObjMembers fuel (d :: u))
termination_by fuel _ => 20 * fuel + 18
decreasing_by all_goals omega
def parseArrElems : Nat → List Nat → Option (JsonArr × List Nat)
  | 0, _ => none
  | fuel+1, s => arrStep fuel (parseVal fuel s)
termination_by fuel _ => 20 * fuel + 10
decreasing_by all_goals omega
def arrStep : Nat → Option (JsonValue × List Nat) → Option (JsonArr × List Nat)
  | _, none => none
  | fuel, some (v, rest) => arrSep fuel v (skipWsJson rest)
termination_by fuel _ => 20 * fuel + 12
decreasing_by all_goals omega
def arrSep : Nat → JsonValue → List Nat → Option (JsonArr × List Nat)
  | _, _, [] => none
  | fuel, v, d :: u =>
    if d = 44 then mkArrCons v (parseArrElems fuel u)
    else if d = 93 then some (.cons v .nil, u)
    else none
termination_by fuel _ _ => 20 * fuel + 11
decreasing_by all_goals omega
def parseObjMembers : Nat → List Nat → Option (JsonObj × List Nat)
  | 0, _ => none
  | fuel+1, s => objMemStart fuel s
termination_by fuel _ => 20 * fuel + 4
decreasing_by all_goals omega
def objMemStart : Nat → List Nat → Option (JsonObj × List Nat)
  | _, [] => none
  | fuel, c :: t => if c = 34 then objKey fuel (parseJsonString t) else none
termination_by fuel _ => 20 * fuel + 9
decreasing_by all_goals omega
def objKey : Nat → Option (List Nat × List Nat) → Option (JsonObj × List Nat)
  | _, none => none
  | fuel, some (k, rest) => objColon fuel k (skipWsJson rest)
termination_by fuel _ => 20 * fuel + 8
decreasing_by all_goals omega
def objColon : Nat → List Nat → List Nat → Option (JsonObj × List Nat)
  | _, _, [] => none
  | fuel, k, d :: u =>
    if d = 58 then objVal fuel k (parseVal fuel u) else none
termination_by fuel _ _ => 20 * fuel + 7
decreasing_by all_goals omega
def objVal : Nat → List Nat → Option (JsonValue × List Nat) → Option (JsonObj × List Nat)
  | _, _, none => none
  | fuel, k, some (v, rest2) => objSep fuel k v (skipWsJson rest2)
termination_by fuel _ _ => 20 * fuel + 6
decreasing_by all_goals omega
def objSep : Nat → List Nat → JsonValue → List Nat → Option (JsonObj × List Nat)
  | _, _, _, [] => none
  | fuel, k, v, d2 :: u2 =>
    if d2 = 44 then mkObjCons k v (parseObjMembers fuel (skipWsJson u2))
    else if d2 = 125 then some (.cons k v .nil, u2)
    else none
termination_by fuel _ _ _ => 20 * fuel + 5
decreasing_by all_goals omega
end


/-- Model of JSON.parse: parse one value, require only white space
after it. -/
def jsonParseEnd : Option (JsonValue × List Nat) → Option JsonValue
  | some (v, rest) => if skipWsJson rest = [] then some v else none
  | none => none

def jsonParse (s : List Nat) : Option JsonValue :=
  jsonParseEnd (parseVal (s.length + 1) s)

/-! ## String escaping round trip -/

theorem hexVal_hexDigit : ∀ d, d < 16 → hexVal (hexDigit d) = some d := by decide

theorem parseHex4_hex4 (n : Nat) (h : n < 65536) (rest : List Nat) :
    parseHex4 (hex4 n ++ rest) = some (n, rest) := by
  have e1 : n / 4096 % 16 < 16 := Nat.mod_lt _ (by norm_num)
  have e2 : n / 256 % 16 < 16 := Nat.mod_lt _ (by norm_num)
  have e3 : n / 16 % 16 < 16 := Nat.mod_lt _ (by norm_num)
  have e4 : n % 16 < 16 := Nat.mod_lt _ (by norm_num)
  simp only [hex4, List.cons_append, List.nil_append, parseHex4,
    hexVal_hexDigit _ e1, hexVal_hexDigit _ e2, hexVal_hexDigit _ e3, hexVal_hexDigit _ e4]
  congr 1
  congr 1
  omega

theorem escStr_parse : ∀ (s : List Nat) (fuel : Nat) (rest : List Nat),
    s.length < fuel → strWf s = true →
    parseStrChars fuel (escStr s ++ 34 :: rest) = some (s, rest) := by
  intro s
  induction s with
  | nil =>
    intro fuel rest hf _
    cases fuel with
    | zero => omega
    | succ g => simp [escStr, parseStrChars]
  | cons c t ih =>
    intro fuel rest hf hwf
    simp only [strWf, List.all_cons, Bool.and_eq_true] at hwf
    have hvs := hwf.1
    have hwt : strWf t = true := hwf.2
    cases fuel with
    | zero => simp at hf
    | succ g =>
      have hg : t.length < g := by simp at hf; omega
      have hrec := ih g rest hg hwt
      simp only [validScalar, Bool.or_eq_true, Bool.and_eq_true, decide_eq_true_eq] at hvs
      by_cases h34 : c = 34
      · subst h34
        simp [escStr, escChar, parseStrChars, parseEsc, consStr, hrec]
      by_cases h92 : c = 92
      · subst h92
        simp [escStr, escChar, parseStrChars, parseEsc, consStr, hrec]
      by_cases h8 : c = 8
      · subst h8
        simp [escStr, escChar, parseStrChars, parseEsc, consStr, hrec]
      by_cases h9 : c = 9
      · subst h9
        simp [escStr, escChar, parseStrChars, parseEsc, consStr, hrec]
      by_cases h10 : c = 10
      · subst h10
        simp [escStr, escChar, parseStrChars, parseEsc, consStr, hrec]
      by_cases h12 : c = 12
      · subst h12
        simp [escStr, escChar, parseStrChars, parseEsc, consStr, hrec]
      by_cases h13 : c = 13
      · subst h13
        simp [escStr, escChar, parseStrChars, parseEsc, consStr, hrec]
      by_cases hctl : c < 32
      · have hesc : escChar c = 92 :: 117 :: hex4 c := by
          simp [escChar, h34, h92, h8, h9, h10, h12, h13, hctl]
        have hsur : ¬ (55296 ≤ c ∧ c < 56320) := by omega
        rw [escStr, hesc]
        simp only [List.cons_append, List.append_assoc]
        rw [parseStrChars]
        rw [if_neg (by omega), if_pos rfl, parseEsc]
        rw [if_neg (by intro hx; omega), if_neg (by intro hx; omega),
          if_neg (by intro hx; omega), if_neg (by intro hx; omega),
          if_neg (by intro hx; omega), if_neg (by intro hx; omega),
          if_neg (by intro hx; omega), if_neg (by intro hx; omega), if_pos rfl]
        rw [parseHex4_hex4 c (by omega), parseU, if_neg hsur, hrec, consStr]
      by_cases hprint : c < 127
      · have hesc : escChar c = [c] := by
          simp [escChar, h34, h92, h8, h9, h10, h12, h13, hctl, hprint]
        rw [escStr, hesc]
        simp only [List.cons_append, List.nil_append]
        rw [parseStrChars, if_neg h34, if_neg h92, if_neg hctl, hrec, consStr]
      by_cases hbmp : c < 65536
      · have hesc : escChar c = 92 :: 117 :: hex4 c := by
          simp [escChar, h34, h92, h8, h9, h10, h12, h13, hctl, hprint, hbmp]
        have hsur : ¬ (55296 ≤ c ∧ c < 56320) := by
          rcases hvs with hv | hv <;> omega
        rw [escStr, hesc]
        simp only [List.cons_append, List.append_assoc]
        rw [parseStrChars]
        rw [if_neg (by omega), if_pos rfl, parseEsc]
        rw [if_neg (by intro hx; omega), if_neg (by intro hx; omega),
          if_neg (by intro hx; omega), if_neg (by intro hx; omega),
          if_neg (by intro hx; omega), if_neg (by intro hx; omega),
          if_neg (by intro hx; omega), if_neg (by intro hx; omega), if_pos rfl]
        rw [parseHex4_hex4 c (by omega), parseU, if_neg hsur, hrec, consStr]
      · have hc2 : c < 1114112 := by
          rcases hvs with hv | hv <;> omega
        have hesc : escChar c =
            (92 :: 117 :: hex4 (55296 + (c - 65536) / 1024)) ++
              (92 :: 117 :: hex4 (56320 + (c - 65536) % 1024)) := by
          simp [escChar, h34, h92, h8, h9, h10, h12, h13, hctl, hprint, hbmp]
        rw [escStr, hesc]
        have hq : (c - 65536) / 1024 < 1024 := by
          rw [Nat.div_lt_iff_lt_mul (by norm_num)]
          omega
        have hr : (c - 65536) % 1024 < 1024 := Nat.mod_lt _ (by norm_num)
        have hhi : 55296 + (c - 65536) / 1024 < 65536 := by omega
        have hlo : 56320 + (c - 65536) % 1024 < 65536 := by omega
        have hsur : 55296 ≤ 55296 + (c - 65536) / 1024 ∧
            55296 + (c - 65536) / 1024 < 56320 := by omega
        have hlosur : 56320 ≤ 56320 + (c - 65536) % 1024 ∧
            56320 + (c - 65536) % 1024 < 57344 := by omega
        simp only [List.cons_append, List.append_assoc]
        rw [parseStrChars]
        rw [if_neg (by omega), if_pos rfl, parseEsc]
        rw [if_neg (by intro hx; omega), if_neg (by intro hx; omega),
          if_neg (by intro hx; omega), if_neg (by intro hx; omega),
          if_neg (by intro hx; omega), if_neg (by intro hx; omega),
          if_neg (by intro hx; omega), if_neg (by intro hx; omega), if_pos rfl]
        rw [parseHex4_hex4 _ hhi, parseU, if_pos hsur]
        rw [parseLow, parseHex4_hex4 _ hlo, parseLow2, if_pos hlosur, hrec, consStr]
        have hdm : (c - 65536) / 1024 * 1024 + (c - 65536) % 1024 = c - 65536 := by
          rw [Nat.mul_comm]
          exact Nat.div_add_mod (c - 65536) 1024
        have hfin : 65536 + (55296 + (c - 65536) / 1024 - 55296) * 1024 +
            (56320 + (c - 65536) % 1024 - 56320) = c := by omega
        rw [hfin]


theorem escStr_length_ge (s : List Nat) : s.length ≤ (escStr s).length := by
  induction s with
  | nil => simp [escStr]
  | cons c t ih =>
    rw [escStr]
    have : 1 ≤ (escChar c).length := by
      simp only [escChar]
      repeat' split
      all_goals simp [hex4]
    simp only [List.length_append, List.length_cons]
    omega

theorem parseJsonString_escStr (s : List Nat) (rest : List Nat) (hwf : strWf s = true) :
    parseJsonString (escStr s ++ 34 :: rest) = some (s, rest) := by
  apply escStr_parse
  · have := escStr_length_ge s
    simp only [List.length_append, List.length_cons]
    omega
  · exact hwf

/-! ## Round trip of serialization and parsing -/

mutual
/-- Fuel needed by the parser to read back a printed value. -/
def jdepth : JsonValue → Nat
  | .jnull => 1
  | .jbool _ => 1
  | .jnum _ => 1
  | .jstr _ => 1
  | .jarr xs => jdepthArr xs + 1
  | .jobj ms => jdepthObj ms + 1
def jdepthArr : JsonArr → Nat
  | .nil => 1
  | .cons v r => 1 + max (jdepth v) (jdepthArr r)
def jdepthObj : JsonObj → Nat
  | .nil => 1
  | .cons _ v r => 1 + max (jdepth v) (jdepthObj r)
end

theorem jdepthArr_pos (xs : JsonArr) : 1 ≤ jdepthArr xs := by
  cases xs <;> simp [jdepthArr]

theorem jdepthObj_pos (ms : JsonObj) : 1 ≤ jdepthObj ms := by
  cases ms <;> simp [jdepthObj]

theorem jdepth_pos (v : JsonValue) : 1 ≤ jdepth v := by
  cases v <;> simp [jdepth]

theorem print_ne_nil (q : JNumber) : q.print ≠ [] := by
  have hmag : jnumPrintMag q.man.natAbs q.exp ≠ [] := by
    by_cases he : q.exp = 0
    · simp only [jnumPrintMag, if_pos he]
      exact natPrint_ne_nil _
    · simp only [jnumPrintMag, if_neg he]
      intro hcon
      exact natPrint_ne_nil _ (List.append_eq_nil.mp hcon).1
  simp only [JNumber.print]
  by_cases hm : q.man < 0
  · simp [hm]
  · simp [hm, hmag]

theorem print_head_num (q : JNumber) (r : List Nat) (c : Nat)
    (h : (q.print ++ r).head? = some c) : c = 45 ∨ isDigitB c = true := by
  simp only [JNumber.print] at h
  by_cases hm : q.man < 0
  · rw [if_pos hm] at h
    simp only [List.cons_append, List.head?_cons, Option.some.injEq] at h
    exact Or.inl h.symm
  · rw [if_neg hm] at h
    exact Or.inr (jnumPrintMag_head_digit _ _ _ _ h)

def jsonHeadOK (c : Nat) : Bool :=
  c = 110 || c = 116 || c = 102 || c = 34 || c = 91 || c = 123 || c = 45 || isDigitB c

theorem stringify_null : stringify JsonValue.jnull = [110, 117, 108, 108] := by decide

theorem stringify_true : stringify (JsonValue.jbool true) = [116, 114, 117, 101] := by decide

theorem stringify_false : stringify (JsonValue.jbool false) = [102, 97, 108, 115, 101] := by
  decide

theorem stringify_head_ok (v : JsonValue) (r : List Nat) (c : Nat)
    (h : (stringify v ++ r).head? = some c) : jsonHeadOK c = true := by
  cases v with
  | jnull => rw [stringify_null] at h; simp at h; simp [jsonHeadOK, h]
  | jbool b =>
    cases b
    · rw [stringify_false] at h; simp at h; simp [jsonHeadOK, h]
    · rw [stringify_true] at h; simp at h; simp [jsonHeadOK, h]
  | jnum q =>
    have := print_head_num q r c h
    rcases this with h1 | h1 <;> simp [jsonHeadOK, h1]
  | jstr s =>
    simp only [stringify, List.cons_append, List.head?_cons, Option.some.injEq] at h
    simp [jsonHeadOK, h.symm]
  | jarr xs =>
    simp only [stringify, List.cons_append, List.head?_cons, Option.some.injEq] at h
    simp [jsonHeadOK, h.symm]
  | jobj ms =>
    simp only [stringify, List.cons_append, List.head?_cons, Option.some.injEq] at h
    simp [jsonHeadOK, h.symm]

theorem headOK_facts (c : Nat) (h : jsonHeadOK c = true) :
    isJsonWs c = false ∧ c ≠ 93 ∧ c ≠ 125 ∧ c ≠ 44 ∧ c ≠ 58 := by
  simp only [jsonHeadOK, isDigitB, Bool.or_eq_true, decide_eq_true_eq,
    Bool.and_eq_true] at h
  simp only [isJsonWs, Bool.or_eq_false_iff]
  constructor
  · constructor
    · constructor
      · constructor <;> simp only [decide_eq_false_iff_not] <;> omega
      · simp only [decide_eq_false_iff_not]; omega
    · simp only [decide_eq_false_iff_not]; omega
  · omega

theorem skipWs_no_ws (l : List Nat) (h : ∀ c, l.head? = some c → isJsonWs c = false) :
    skipWsJson l = l := by
  cases l with
  | nil => rfl
  | cons c t =>
    simp only [skipWsJson]
    exact dropWhile_cons_of_neg c t (h c rfl)

theorem stringify_ne_nil (v : JsonValue) : stringify v ≠ [] := by
  cases v with
  | jnull => rw [stringify_null]; simp
  | jbool b => cases b
               · rw [stringify_false]; simp
               · rw [stringify_true]; simp
  | jnum q => exact print_ne_nil q
  | jstr s => simp [stringify]
  | jarr xs => simp [stringify]
  | jobj ms => simp [stringify]

theorem skipWs_stringify (v : JsonValue) (r : List Nat) :
    skipWsJson (stringify v ++ r) = stringify v ++ r := by
  apply skipWs_no_ws
  intro c hc
  exact (headOK_facts c (stringify_head_ok v r c hc)).1

theorem exists_head_of_ne_nil (l : List Nat) (h : l ≠ []) : ∃ c t, l = c :: t := by
  cases l with
  | nil => exact absurd rfl h
  | cons c t => exact ⟨c, t, rfl⟩

theorem stringifyArr_cons_split (v : JsonValue) (r : JsonArr) :
    ∃ w, stringifyArr (JsonArr.cons v r) = stringify v ++ w := by
  cases r with
  | nil => exact ⟨[], by simp [stringifyArr]⟩
  | cons w r2 => exact ⟨44 :: stringifyArr (JsonArr.cons w r2), by simp [stringifyArr]⟩

theorem stringifyObj_cons_head (k : List Nat) (v : JsonValue) (r : JsonObj) :
    ∃ w, stringifyObj (JsonObj.cons k v r) = 34 :: w := by
  cases r with
  | nil => exact ⟨escStr k ++ [34] ++ 58 :: stringify v, by simp [stringifyObj]⟩
  | cons k2 w2 r2 =>
    exact ⟨escStr k ++ [34] ++ 58 :: (stringify v ++ 44 :: stringifyObj (JsonObj.cons k2 w2 r2)),
      by simp [stringifyObj]⟩

mutual
theorem parseVal_print (v : JsonValue) : ∀ (fuel : Nat) (rest : List Nat),
    jdepth v ≤ fuel → JsonValue.wf v = true → stopsNumB rest = true →
    parseVal fuel (stringify v ++ rest) = some (v, rest) := by
  intro fuel rest hfuel hwf hstop
  cases fuel with
  | zero => exact absurd hfuel (by have := jdepth_pos v; omega)
  | succ g =>
    rw [parseVal, skipWs_stringify]
    cases v with
    | jnull =>
      rw [stringify_null]
      simp [parseValCore, litNull]
    | jbool b =>
      cases b
      · rw [stringify_false]; simp [parseValCore, litFalse]
      · rw [stringify_true]; simp [parseValCore, litTrue]
    | jnum q =>
      have hsp : stringify (JsonValue.jnum q) = q.print := rfl
      rw [hsp]
      obtain ⟨c, t, hct⟩ := exists_head_of_ne_nil (q.print ++ rest)
        (by intro hcon; exact print_ne_nil q (List.append_eq_nil.mp hcon).1)
      have hcls := print_head_num q rest c (by rw [hct]; rfl)
      have hd : ¬ c = 110 ∧ ¬ c = 116 ∧ ¬ c = 102 ∧ ¬ c = 34 ∧ ¬ c = 91 ∧ ¬ c = 123 := by
        rcases hcls with h1 | h1
        · omega
        · simp only [isDigitB, Bool.and_eq_true, decide_eq_true_eq] at h1; omega
      rw [hct, parseValCore]
      rw [if_neg hd.1, if_neg hd.2.1, if_neg hd.2.2.1, if_neg hd.2.2.2.1,
        if_neg hd.2.2.2.2.1, if_neg hd.2.2.2.2.2]
      rw [← hct, parseJsonNumber_roundtrip q (by simpa [JsonValue.wf] using hwf) rest hstop,
        mkNum]
    | jstr s =>
      have hsp : stringify (JsonValue.jstr s) ++ rest = 34 :: (escStr s ++ 34 :: rest) := by
        simp [stringify]
      rw [hsp, parseValCore]
      rw [if_neg (by omega), if_neg (by omega), if_neg (by omega), if_pos rfl]
      rw [parseJsonString_escStr s rest (by simpa [JsonValue.wf] using hwf), mkStr]
    | jarr xs =>
      have hwfa : JsonArr.wf xs = true := by simpa [JsonValue.wf] using hwf
      cases xs with
      | nil =>
        have hsp : stringify (JsonValue.jarr JsonArr.nil) ++ rest = 91 :: (93 :: rest) := by
          simp [stringify, stringifyArr]
        rw [hsp, parseValCore]
        rw [if_neg (by omega), if_neg (by omega), if_neg (by omega), if_neg (by omega),
          if_pos rfl]
        rw [skipWs_no_ws _ (by
          intro c hc
          simp only [List.head?_cons, Option.some.injEq] at hc
          subst hc
          rfl)]
        rw [arrStart, if_pos rfl]
      | cons v r =>
        obtain ⟨w, hw⟩ := stringifyArr_cons_split v r
        have hsp : stringify (JsonValue.jarr (JsonArr.cons v r)) ++ rest =
            91 :: (stringifyArr (JsonArr.cons v r) ++ 93 :: rest) := by
          simp [stringify]
        rw [hsp, parseValCore]
        rw [if_neg (by omega), if_neg (by omega), if_neg (by omega), if_neg (by omega),
          if_pos rfl]
        have hlist : stringifyArr (JsonArr.cons v r) ++ 93 :: rest =
            stringify v ++ (w ++ 93 :: rest) := by rw [hw, List.append_assoc]
        rw [hlist, skipWs_stringify]
        obtain ⟨c, t, hct⟩ := exists_head_of_ne_nil (stringify v ++ (w ++ 93 :: rest))
          (by intro hcon; exact stringify_ne_nil v (List.append_eq_nil.mp hcon).1)
        have hfacts := headOK_facts c (stringify_head_ok v _ c (by rw [hct]; rfl))
        rw [hct, arrStart, if_neg hfacts.2.1]
        rw [← hct, ← hlist]
        rw [parseArrElems_print (JsonArr.cons v r) g rest
          (by simp only [jdepth] at hfuel; omega) hwfa
          (by intro hcon; exact JsonArr.noConfusion hcon), mkArr]
    | jobj ms =>
      have hwfo : JsonObj.wf ms = true := by simpa [JsonValue.wf] using hwf
      cases ms with
      | nil =>
        have hsp : stringify (JsonValue.jobj JsonObj.nil) ++ rest = 123 :: (125 :: rest) := by
          simp [stringify, stringifyObj]
        rw [hsp, parseValCore]
        rw [if_neg (by omega), if_neg (by omega), if_neg (by omega), if_neg (by omega),
          if_neg (by omega), if_pos rfl]
        rw [skipWs_no_ws _ (by
          intro c hc
          simp only [List.head?_cons, Option.some.injEq] at hc
          subst hc
          rfl)]
        rw [objStart, if_pos rfl]
      | cons k v r =>
        obtain ⟨w, hw⟩ := stringifyObj_cons_head k v r
        have hsp : stringify (JsonValue.jobj (JsonObj.cons k v r)) ++ rest =
            123 :: (stringifyObj (JsonObj.cons k v r) ++ 125 :: rest) := by
          simp [stringify]
        rw [hsp, parseValCore]
        rw [if_neg (by omega), if_neg (by omega), if_neg (by omega), if_neg (by omega),
          if_neg (by omega), if_pos rfl]
        have hlist : stringifyObj (JsonObj.cons k v r) ++ 125 :: rest =
            34 :: (w ++ 125 :: rest) := by rw [hw]; rfl
        rw [hlist]
        rw [skipWs_no_ws _ (by
          intro c hc
          simp only [List.head?_cons, Option.some.injEq] at hc
          subst hc
          rfl)]
        rw [objStart, if_neg (by omega)]
        rw [← hlist]
        rw [parseObjMembers_print (JsonObj.cons k v r) g rest
          (by simp only [jdepth] at hfuel; omega) hwfo
          (by intro hcon; exact JsonObj.noConfusion hcon), mkObj]

theorem parseArrElems_print (xs : JsonArr) : ∀ (fuel : Nat) (rest : List Nat),
    jdepthArr xs ≤ fuel → JsonArr.wf xs = true → xs ≠ JsonArr.nil →
    parseArrElems fuel (stringifyArr xs ++ 93 :: rest) = some (xs, rest) := by
  intro fuel rest hfuel hwf hne
  cases xs with
  | nil => exact absurd rfl hne
  | cons v r =>
    have hvpos := jdepth_pos v
    have hrpos := jdepthArr_pos r
    simp only [jdepthArr] at hfuel
    simp only [JsonArr.wf, Bool.and_eq_true] at hwf
    cases fuel with
    | zero => omega
    | succ g =>
      cases r with
      | nil =>
        have hsp : stringifyArr (JsonArr.cons v JsonArr.nil) ++ 93 :: rest =
            stringify v ++ 93 :: rest := by simp [stringifyArr]
        rw [hsp, parseArrElems]
        rw [parseVal_print v g (93 :: rest) (by omega) hwf.1 (by rfl)]
        rw [arrStep]
        rw [skipWs_no_ws _ (by
          intro c hc
          simp only [List.head?_cons, Option.some.injEq] at hc
          subst hc
          rfl)]
        rw [arrSep, if_neg (by omega), if_pos rfl]
      | cons w2 r2 =>
        have hsp : stringifyArr (JsonArr.cons v (JsonArr.cons w2 r2)) ++ 93 :: rest =
            stringify v ++ (44 :: (stringifyArr (JsonArr.cons w2 r2) ++ 93 :: rest)) := by
          simp [stringifyArr]
        rw [hsp, parseArrElems]
        rw [parseVal_print v g _ (by omega) hwf.1 (by rfl)]
        rw [arrStep]
        rw [skipWs_no_ws _ (by
          intro c hc
          simp only [List.head?_cons, Option.some.injEq] at hc
          subst hc
          rfl)]
        rw [arrSep, if_pos rfl]
        rw [parseArrElems_print (JsonArr.cons w2 r2) g rest
          (by have := jdepthArr_pos r2; have := jdepth_pos w2; omega) hwf.2
          (by intro hcon; exact JsonArr.noConfusion hcon), mkArrCons]

theorem parseObjMembers_print (ms : JsonObj) : ∀ (fuel : Nat) (rest : List Nat),
    jdepthObj ms ≤ fuel → JsonObj.wf ms = true → ms ≠ JsonObj.nil →
    parseObjMembers fuel (stringifyObj ms ++ 125 :: rest) = some (ms, rest) := by
  intro fuel rest hfuel hwf hne
  cases ms with
  | nil => exact absurd rfl hne
  | cons k v r =>
    have hvpos := jdepth_pos v
    have hrpos := jdepthObj_pos r
    simp only [jdepthObj] at hfuel
    simp only [JsonObj.wf, Bool.and_eq_true] at hwf
    obtain ⟨⟨⟨hk, hv⟩, hr⟩, _⟩ := hwf
    cases fuel with
    | zero => omega
    | succ g =>
      cases r with
      | nil =>
        have hsp : stringifyObj (JsonObj.cons k v JsonObj.nil) ++ 125 :: rest =
            34 :: (escStr k ++ 34 :: (58 :: (stringify v ++ 125 :: rest))) := by
          simp [stringifyObj]
        rw [hsp, parseObjMembers, objMemStart, if_pos rfl]
        rw [parseJsonString_escStr k _ hk, objKey]
        rw [skipWs_no_ws _ (by
          intro c hc
          simp only [List.head?_cons, Option.some.injEq] at hc
          subst hc
          rfl)]
        rw [objColon, if_pos rfl]
        rw [parseVal_print v g (125 :: rest) (by omega) hv (by rfl)]
        rw [objVal]
        rw [skipWs_no_ws _ (by
          intro c hc
          simp only [List.head?_cons, Option.some.injEq] at hc
          subst hc
          rfl)]
        rw [objSep, if_neg (by omega), if_pos rfl]
      | cons k2 w2 r2 =>
        have hsp : stringifyObj (JsonObj.cons k v (JsonObj.cons k2 w2 r2)) ++ 125 :: rest =
            34 :: (escStr k ++ 34 :: (58 :: (stringify v ++
              (44 :: (stringifyObj (JsonObj.cons k2 w2 r2) ++ 125 :: rest))))) := by
          simp [stringifyObj]
        rw [hsp, parseObjMembers, objMemStart, if_pos rfl]
        rw [parseJsonString_escStr k _ hk, objKey]
        rw [skipWs_no_ws _ (by
          intro c hc
          simp only [List.head?_cons, Option.some.injEq] at hc
          subst hc
          rfl)]
        rw [objColon, if_pos rfl]
        rw [parseVal_print v g _ (by omega) hv (by rfl)]
        rw [objVal]
        rw [skipWs_no_ws _ (by
          intro c hc
          simp only [List.head?_cons, Option.some.injEq] at hc
          subst hc
          rfl)]
        rw [objSep, if_pos rfl]
        obtain ⟨wh, hwh⟩ := stringifyObj_cons_head k2 w2 r2
        have hskip2 : skipWsJson (stringifyObj (JsonObj.cons k2 w2 r2) ++ 125 :: rest) =
            stringifyObj (JsonObj.cons k2 w2 r2) ++ 125 :: rest := by
          apply skipWs_no_ws
          intro c hc
          rw [hwh] at hc
          simp only [List.cons_append, List.head?_cons, Option.some.injEq] at hc
          subst hc
          rfl
        rw [hskip2]
        rw [parseObjMembers_print (JsonObj.cons k2 w2 r2) g rest
          (by have := jdepthObj_pos r2; have := jdepth_pos w2; omega) hr
          (by intro hcon; exact JsonObj.noConfusion hcon), mkObjCons]
end

mutual
theorem jdepth_le_len (v : JsonValue) : jdepth v ≤ (stringify v).length := by
  cases v with
  | jnull => rw [stringify_null]; simp [jdepth]
  | jbool b =>
    cases b
    · rw [stringify_false]; simp [jdepth]
    · rw [stringify_true]; simp [jdepth]
  | jnum q =>
    have hl : 1 ≤ q.print.length := List.length_pos.mpr (print_ne_nil q)
    simpa [jdepth, stringify] using hl
  | jstr s => simp [jdepth, stringify]
  | jarr xs =>
    have hB := jdepthArr_le_len xs
    simp only [jdepth, stringify, List.length_cons, List.length_append, List.length_nil]
    omega
  | jobj ms =>
    have hC := jdepthObj_le_len ms
    simp only [jdepth, stringify, List.length_cons, List.length_append, List.length_nil]
    omega

theorem jdepthArr_le_len (xs : JsonArr) : jdepthArr xs ≤ (stringifyArr xs).length + 1 := by
  cases xs with
  | nil => simp [jdepthArr, stringifyArr]
  | cons v r =>
    have hA := jdepth_le_len v
    cases r with
    | nil =>
      have hv1 : 1 ≤ (stringify v).length := List.length_pos.mpr (stringify_ne_nil v)
      simp only [jdepthArr, stringifyArr]
      omega
    | cons w r2 =>
      have hB := jdepthArr_le_len (JsonArr.cons w r2)
      simp only [jdepthArr, stringifyArr, List.length_append, List.length_cons] at hB ⊢
      omega

theorem jdepthObj_le_len (ms : JsonObj) : jdepthObj ms ≤ (stringifyObj ms).length + 1 := by
  cases ms with
  | nil => simp [jdepthObj, stringifyObj]
  | cons k v r =>
    have hA := jdepth_le_len v
    cases r with
    | nil =>
      simp only [jdepthObj, stringifyObj, List.length_cons, List.length_append,
        List.length_nil]
      omega
    | cons k2 w r2 =>
      have hC := jdepthObj_le_len (JsonObj.cons k2 w r2)
      simp only [jdepthObj, stringifyObj, List.length_cons, List.length_append,
        List.length_nil] at hC ⊢
      omega
end

/-- Serializing any well-formed JSON value and parsing the text back
yields the value again. -/
theorem jsonParse_stringify (v : JsonValue) (hwf : JsonValue.wf v = true) :
    jsonParse (stringify v) = some v := by
  have hd := jdepth_le_len v
  have hmain := parseVal_print v ((stringify v).length + 1) [] (by omega) hwf (by rfl)
  rw [List.append_nil] at hmain
  rw [jsonParse, hmain, jsonParseEnd]
  rfl

/-! ## Base64 (model of Buffer base64 encode and decode) -/

def b64Char (i : Nat) : Nat :=
  if i < 26 then 65 + i
  else if i < 52 then 97 + (i - 26)
  else if i < 62 then 48 + (i - 52)
  else if i = 62 then 43
  else 47

def b64Val (c : Nat) : Option Nat :=
  if 65 ≤ c ∧ c ≤ 90 then some (c - 65)
  else if 97 ≤ c ∧ c ≤ 122 then some (c - 97 + 26)
  else if 48 ≤ c ∧ c ≤ 57 then some (c - 48 + 52)
  else if c = 43 then some 62
  else if c = 47 then some 63
  else none

def b64ValD (c : Nat) : Nat :=
  match b64Val c with
  | some v => v
  | none => 0

def base64Encode : List Nat → List Nat
  | [] => []
  | [b0] => [b64Char (b0 / 4), b64Char (b0 % 4 * 16), 61, 61]
  | [b0, b1] => [b64Char (b0 / 4), b64Char (b0 % 4 * 16 + b1 / 16), b64Char (b1 % 16 * 4), 61]
  | b0 :: b1 :: b2 :: t =>
    b64Char (b0 / 4) :: b64Char (b0 % 4 * 16 + b1 / 16) ::
      b64Char (b1 % 16 * 4 + b2 / 64) :: b64Char (b2 % 64) :: base64Encode t

def base64Decode : List Nat → List Nat
  | c0 :: c1 :: c2 :: c3 :: t =>
    if c2 = 61 then [b64ValD c0 * 4 + b64ValD c1 / 16]
    else if c3 = 61 then
      [b64ValD c0 * 4 + b64ValD c1 / 16, b64ValD c1 % 16 * 16 + b64ValD c2 / 4]
    else
      (b64ValD c0 * 4 + b64ValD c1 / 16) :: (b64ValD c1 % 16 * 16 + b64ValD c2 / 4) ::
        (b64ValD c2 % 4 * 64 + b64ValD c3) :: base64Decode t
  | _ => []

theorem b64Val_b64Char : ∀ i, i < 64 → b64Val (b64Char i) = some i := by decide

theorem b64ValD_b64Char (i : Nat) (h : i < 64) : b64ValD (b64Char i) = i := by
  rw [b64ValD, b64Val_b64Char i h]

theorem b64Char_ne_61 (i : Nat) : b64Char i ≠ 61 := by
  simp only [b64Char]
  repeat' split
  all_goals omega

theorem base64_roundtrip : ∀ (bytes : List Nat), bytes.all (· < 256) = true →
    base64Decode (base64Encode bytes) = bytes := by
  intro bytes
  induction bytes using base64Encode.induct with
  | case1 => intro _; rfl
  | case2 b0 =>
    intro hall
    simp only [List.all_cons, List.all_nil, Bool.and_true, decide_eq_true_eq] at hall
    rw [base64Encode, base64Decode]
    rw [if_pos rfl]
    rw [b64ValD_b64Char _ (by omega), b64ValD_b64Char _ (by omega)]
    have : b0 / 4 * 4 + b0 % 4 * 16 / 16 = b0 := by omega
    rw [this]
  | case3 b0 b1 =>
    intro hall
    simp only [List.all_cons, List.all_nil, Bool.and_true, Bool.and_eq_true,
      decide_eq_true_eq] at hall
    rw [base64Encode, base64Decode]
    rw [if_neg (b64Char_ne_61 _), if_pos rfl]
    rw [b64ValD_b64Char _ (by omega), b64ValD_b64Char _ (by omega),
      b64ValD_b64Char _ (by omega)]
    have h1 : b0 / 4 * 4 + (b0 % 4 * 16 + b1 / 16) / 16 = b0 := by omega
    have h2 : (b0 % 4 * 16 + b1 / 16) % 16 * 16 + b1 % 16 * 4 / 4 = b1 := by omega
    rw [h1, h2]
  | case4 b0 b1 b2 t ih =>
    intro hall
    simp only [List.all_cons, Bool.and_eq_true, decide_eq_true_eq] at hall
    obtain ⟨h0, h1, h2, ht⟩ := hall
    rw [base64Encode, base64Decode]
    rw [if_neg (b64Char_ne_61 _), if_neg (b64Char_ne_61 _)]
    rw [b64ValD_b64Char _ (by omega), b64ValD_b64Char _ (by omega),
      b64ValD_b64Char _ (by omega), b64ValD_b64Char _ (by omega)]
    rw [ih (by simpa using ht)]
    have e1 : b0 / 4 * 4 + (b0 % 4 * 16 + b1 / 16) / 16 = b0 := by omega
    have e2 : (b0 % 4 * 16 + b1 / 16) % 16 * 16 + (b1 % 16 * 4 + b2 / 64) / 4 = b1 := by
      omega
    have e3 : (b1 % 16 * 4 + b2 / 64) % 4 * 64 + b2 % 64 = b2 := by omega
    rw [e1, e2, e3]

def isB64Char (c : Nat) : Bool :=
  (65 ≤ c && c ≤ 90) || (97 ≤ c && c ≤ 122) || (48 ≤ c && c ≤ 57) || c = 43 || c = 47

/-- Source isBase64: at least 10 characters, and the base64 alphabet
with up to two trailing padding signs (the regex test of pngUtils). -/
def isBase64 (s : List Nat) : Bool :=
  if s.length < 10 then false
  else
    decide ((s.reverse.takeWhile (fun c => c = 61)).length ≤ 2) &&
      ((s.reverse.dropWhile (fun c => c = 61)).reverse.all isB64Char)

theorem isB64Char_b64Char (i : Nat) : isB64Char (b64Char i) = true := by
  simp only [b64Char, isB64Char]
  repeat' split
  all_goals simp <;> omega

theorem b64Char_lt_128 (i : Nat) : b64Char i < 128 := by
  simp only [b64Char]
  repeat' split
  all_goals omega

/-- The shape of a base64 encoding: alphabet characters then at most
two padding signs. -/
theorem base64Encode_shape : ∀ (bytes : List Nat),
    ∃ body pads, base64Encode bytes = body ++ List.replicate pads 61 ∧
      body.all isB64Char = true ∧ pads ≤ 2 ∧ 4 ∣ (body.length + pads) := by
  intro bytes
  induction bytes using base64Encode.induct with
  | case1 => exact ⟨[], 0, rfl, rfl, by omega, by simp⟩
  | case2 b0 =>
    refine ⟨[b64Char (b0 / 4), b64Char (b0 % 4 * 16)], 2, rfl, ?_, by omega, by simp⟩
    simp [isB64Char_b64Char]
  | case3 b0 b1 =>
    refine ⟨[b64Char (b0 / 4), b64Char (b0 % 4 * 16 + b1 / 16), b64Char (b1 % 16 * 4)], 1,
      rfl, ?_, by omega, by simp⟩
    simp [isB64Char_b64Char]
  | case4 b0 b1 b2 t ih =>
    obtain ⟨body, pads, heq, hall, hp, hdvd⟩ := ih
    refine ⟨b64Char (b0 / 4) :: b64Char (b0 % 4 * 16 + b1 / 16) ::
      b64Char (b1 % 16 * 4 + b2 / 64) :: b64Char (b2 % 64) :: body, pads, ?_, ?_, hp, ?_⟩
    · rw [base64Encode, heq]
      simp
    · simp [isB64Char_b64Char, hall]
    · simp only [List.length_cons]
      omega

theorem all_not_iff {p : Nat → Bool} (l : List Nat) (c : Nat) (h : l.all p = true)
    (hm : c ∈ l) : p c = true := by
  rw [List.all_eq_true] at h
  exact h c hm

theorem takeWhile_eq_nil_of_all {p q : Nat → Bool} (l : List Nat)
    (h : l.all p = true) (hpq : ∀ c, p c = true → q c = false) :
    l.takeWhile q = [] := by
  cases l with
  | nil => rfl
  | cons c t =>
    simp only [List.all_cons, Bool.and_eq_true] at h
    exact takeWhile_cons_of_neg c t (hpq c h.1)

theorem dropWhile_eq_self_of_all {p q : Nat → Bool} (l : List Nat)
    (h : l.all p = true) (hpq : ∀ c, p c = true → q c = false) :
    l.dropWhile q = l := by
  cases l with
  | nil => rfl
  | cons c t =>
    simp only [List.all_cons, Bool.and_eq_true] at h
    exact dropWhile_cons_of_neg c t (hpq c h.1)

theorem isB64Char_ne_61 (c : Nat) (h : isB64Char c = true) : (c = 61 : Bool) = false := by
  simp only [isB64Char, Bool.or_eq_true, Bool.and_eq_true, decide_eq_true_eq] at h
  simp only [decide_eq_false_iff_not]
  omega

theorem isBase64_encode (bytes : List Nat) (hlen : 10 ≤ (base64Encode bytes).length) :
    isBase64 (base64Encode bytes) = true := by
  obtain ⟨body, pads, heq, hall, hp, _⟩ := base64Encode_shape bytes
  rw [isBase64, if_neg (by omega)]
  rw [heq]
  have hrev : (body ++ List.replicate pads 61).reverse =
      List.replicate pads 61 ++ body.reverse := by
    rw [List.reverse_append, List.reverse_replicate]
  rw [hrev]
  have hballrev : body.reverse.all isB64Char = true := by
    simpa using hall
  have htk : (List.replicate pads 61 ++ body.reverse).takeWhile (fun c => c = 61) =
      List.replicate pads 61 ++ body.reverse.takeWhile (fun c => c = 61) := by
    apply takeWhile_append_of_all
    rw [List.all_eq_true]
    intro x hx
    rw [List.eq_of_mem_replicate hx]
    rfl
  have htk2 : body.reverse.takeWhile (fun c => c = 61) = [] :=
    takeWhile_eq_nil_of_all body.reverse hballrev isB64Char_ne_61
  have hdr : (List.replicate pads 61 ++ body.reverse).dropWhile (fun c => c = 61) =
      body.reverse.dropWhile (fun c => c = 61) := by
    apply dropWhile_append_of_all
    rw [List.all_eq_true]
    intro x hx
    rw [List.eq_of_mem_replicate hx]
    rfl
  have hdr2 : body.reverse.dropWhile (fun c => c = 61) = body.reverse :=
    dropWhile_eq_self_of_all body.reverse hballrev isB64Char_ne_61
  rw [htk, htk2, hdr, hdr2, List.append_nil, List.reverse_reverse]
  simp only [List.length_replicate, hall, Bool.and_true]
  simp [hp]

/-! ## PNG chunk scanning (pngUtils extractPngMetadata) -/

structure MetadataChunk where
  keyword : List Nat
  text : List Nat
deriving DecidableEq, Repr

def pngSignature : List Nat := [137, 80, 78, 71, 13, 10, 26, 10]

/-- Big-endian 32-bit read of the first four bytes. -/
def readUInt32BE (l : List Nat) : Nat :=
  match l with
  | a :: b :: c :: d :: _ => a * 16777216 + b * 65536 + c * 256 + d
  | _ => 0

/-- Node ascii decoding of a byte: the high bit is masked off. -/
def asciiDecode (l : List Nat) : List Nat := l.map (fun b => b % 128)

/-- Split the chunk payload at the first zero byte, as the keyword scan
of the source does; no zero byte means the chunk is skipped. -/
def splitAtZero : List Nat → Option (List Nat × List Nat)
  | [] => none
  | c :: t => if c = 0 then some ([], t) else consStr c (splitAtZero t)

def txtRecord : Option (List Nat × List Nat) → List MetadataChunk
  | some (kw, txt) => [⟨asciiDecode kw, asciiDecode txt⟩]
  | none => []

def textChunkOf (ctype cdata : List Nat) : List MetadataChunk :=
  if ctype = strCodes ("tEXt") then txtRecord (splitAtZero cdata) else []

/-- The chunk scan loop: read length and type, stop as soon as the
declared data would overrun the buffer, collect tEXt records, skip the
four checksum bytes. -/
def extractLoop (rem : List Nat) : List MetadataChunk :=
  if rem.length < 8 then []
  else
    let len := readUInt32BE (rem.take 4)
    if 8 + len > rem.length then []
    else
      textChunkOf ((rem.drop 4).take 4) ((rem.drop 8).take len) ++
        extractLoop (rem.drop (8 + len + 4))
termination_by rem.length
decreasing_by
  simp only [List.length_drop]
  omega

/-- pngUtils extractPngMetadata: verify the signature, then scan. -/
def extractPngMetadata (buffer : List Nat) : List MetadataChunk :=
  if buffer.take 8 = pngSignature then extractLoop (buffer.drop 8) else []

def be32 (n : Nat) : List Nat :=
  [n / 16777216 % 256, n / 65536 % 256, n / 256 % 256, n % 256]

structure RawChunk where
  ctype : List Nat
  cdata : List Nat
  crc : List Nat
deriving DecidableEq, Repr

def chunkWF (c : RawChunk) : Prop :=
  c.ctype.length = 4 ∧ c.crc.length = 4 ∧ c.cdata.length < 4294967296

def encodeChunk (c : RawChunk) : List Nat :=
  be32 c.cdata.length ++ c.ctype ++ c.cdata ++ c.crc

theorem readUInt32BE_be32 (n : Nat) (h : n < 4294967296) :
    readUInt32BE (be32 n) = n := by
  simp only [be32, readUInt32BE]
  omega

theorem take_append_len (l r : List Nat) (n : Nat) (h : l.length = n) :
    (l ++ r).take n = l := by
  subst h
  induction l with
  | nil => simp
  | cons c t ih => simp [ih]

theorem drop_append_len (l r : List Nat) (n : Nat) (h : l.length = n) :
    (l ++ r).drop n = r := by
  subst h
  induction l with
  | nil => simp
  | cons c t ih => simp [ih]

theorem be32_length (n : Nat) : (be32 n).length = 4 := rfl

theorem extractLoop_chunk (c : RawChunk) (hwf : chunkWF c) (rest : List Nat) :
    extractLoop (encodeChunk c ++ rest) =
      textChunkOf c.ctype c.cdata ++ extractLoop rest := by
  obtain ⟨ht, hc, hlen⟩ := hwf
  have hlength : (encodeChunk c ++ rest).length = 12 + c.cdata.length + rest.length := by
    simp only [encodeChunk, List.length_append, be32_length, ht, hc]
    omega
  rw [extractLoop]
  rw [if_neg (by omega)]
  have htake4 : (encodeChunk c ++ rest).take 4 = be32 c.cdata.length := by
    rw [encodeChunk]
    simp only [List.append_assoc]
    exact take_append_len _ _ 4 (be32_length _)
  rw [htake4]
  simp only [readUInt32BE_be32 _ hlen]
  rw [if_neg (by omega)]
  have hdrop4 : (encodeChunk c ++ rest).drop 4 = c.ctype ++ (c.cdata ++ (c.crc ++ rest)) := by
    rw [encodeChunk]
    simp only [List.append_assoc]
    exact drop_append_len _ _ 4 (be32_length _)
  have htype : ((encodeChunk c ++ rest).drop 4).take 4 = c.ctype := by
    rw [hdrop4]
    exact take_append_len _ _ 4 ht
  have hdrop8 : (encodeChunk c ++ rest).drop 8 = c.cdata ++ (c.crc ++ rest) := by
    have : (encodeChunk c ++ rest).drop 8 = ((encodeChunk c ++ rest).drop 4).drop 4 := by
      rw [List.drop_drop]
    rw [this, hdrop4]
    exact drop_append_len _ _ 4 ht
  have hdata : ((encodeChunk c ++ rest).drop 8).take c.cdata.length = c.cdata := by
    rw [hdrop8]
    exact take_append_len _ _ _ rfl
  have hnext : (encodeChunk c ++ rest).drop (8 + c.cdata.length + 4) = rest := by
    have h1 : (encodeChunk c ++ rest).drop (8 + c.cdata.length + 4) =
        ((encodeChunk c ++ rest).drop 8).drop (c.cdata.length + 4) := by
      rw [List.drop_drop]
      congr 1
    rw [h1, hdrop8]
    have h2 : (c.cdata ++ (c.crc ++ rest)).drop (c.cdata.length + 4) =
        ((c.cdata ++ (c.crc ++ rest)).drop c.cdata.length).drop 4 := by
      rw [List.drop_drop]
    rw [h2, drop_append_len _ _ _ rfl]
    exact drop_append_len _ _ 4 hc
  rw [htype, hdata, hnext]

theorem extractLoop_short (tail : List Nat) (h : tail.length < 8) :
    extractLoop tail = [] := by
  rw [extractLoop, if_pos h]

theorem extractLoop_truncated (tail : List Nat) (h8 : 8 ≤ tail.length)
    (htr : tail.length < 8 + readUInt32BE (tail.take 4)) :
    extractLoop tail = [] := by
  rw [extractLoop, if_neg (by omega), if_pos (by omega)]

/-- Scanning a buffer made of a valid signature, well-formed chunks and
a truncated final chunk returns exactly the tEXt records of the
well-formed chunks. -/
theorem extractPngMetadata_spec (cs : List RawChunk) (hwf : ∀ c ∈ cs, chunkWF c)
    (tail : List Nat) (h8 : 8 ≤ tail.length)
    (htr : tail.length < 8 + readUInt32BE (tail.take 4)) :
    extractPngMetadata (pngSignature ++ ((cs.map encodeChunk).flatten ++ tail)) =
      (cs.map (fun c => textChunkOf c.ctype c.cdata)).flatten := by
  rw [extractPngMetadata]
  rw [if_pos (take_append_len pngSignature ((cs.map encodeChunk).flatten ++ tail) 8 (by rfl))]
  rw [drop_append_len pngSignature ((cs.map encodeChunk).flatten ++ tail) 8 (by rfl)]
  induction cs with
  | nil =>
    simp only [List.map_nil, List.flatten_nil, List.nil_append]
    exact extractLoop_truncated tail h8 htr
  | cons c cs2 ih =>
    simp only [List.map_cons, List.flatten_cons, List.append_assoc]
    rw [extractLoop_chunk c (hwf c (by simp)) _]
    rw [ih (fun d hd => hwf d (by simp [hd]))]

/-! ## Version extraction (pngUtils extractVersionNumber) -/

def kCharacterVersion : List Nat := strCodes ("character_version")
def kVersion : List Nat := strCodes ("version")
def kMetadata : List Nat := strCodes ("metadata")
def kCreator : List Nat := strCodes ("creator")
def kData : List Nat := strCodes ("data")
def kName : List Nat := strCodes ("name")
def kCharName : List Nat := strCodes ("char_name")
def kDescription : List Nat := strCodes ("description")
def kPersonality : List Nat := strCodes ("personality")
def kTags : List Nat := strCodes ("tags")

def orO : Option JsonValue → Option JsonValue → Option JsonValue
  | some v, _ => some v
  | none, b => b

/-- Optional-chained property read `x?.k`: undefined propagates, and a
read off null or a primitive gives undefined. -/
def bindField : Option JsonValue → List Nat → Option JsonValue
  | some v, k => getField v k
  | none, _ => none

def getField2 (data : JsonValue) (k1 k2 : List Nat) : Option JsonValue :=
  bindField (getField data k1) k2

/-- The six candidate locations of pngUtils extractVersionNumber, in
source order; a candidate is taken whenever it is not undefined (a null
candidate is taken, matching the `!== undefined` tests). -/
def verCandidate (data : JsonValue) : Option JsonValue :=
  orO (getField data kCharacterVersion)
    (orO (getField data kVersion)
      (orO (getField2 data kMetadata kCharacterVersion)
        (orO (getField2 data kMetadata kVersion)
          (orO (getField2 data kCreator kCharacterVersion)
            (getField2 data kCreator kVersion)))))

def candidateOrDefault : Option JsonValue → JsonValue
  | some v => v
  | none => .jstr (strCodes ("1.0"))

def floatOrOne : Option JNumber → JNumber
  | some q => q
  | none => ⟨1, 0⟩

/-- pngUtils extractVersionNumber: take the first non-undefined of the
six candidate locations (else the string "1.0"), coerce with String(),
parse with parseFloat, and map NaN to 1.0. -/
def extractVersionNumber (data : JsonValue) : JNumber :=
  floatOrOne (parseFloatJS (jsToString (candidateOrDefault (verCandidate data))))

/-! ## Character data extraction (pngUtils extractCharacterData) -/

def utf8Cont (b : Nat) : Bool := 128 ≤ b && b < 192

/-- Byte-to-scalar utf8 decoding as Buffer.toString applies it to the
decoded base64 payloads. Ill-formed sequences are replaced; the exact
replacement policy of Node on truncated multi-byte heads is modelled
only as far as producing a replacement character, which no considered
input exercises (every payload that matters here is pure ASCII). -/
def utf8DecodeF : Nat → List Nat → List Nat
  | 0, _ => []
  | _ + 1, [] => []
  | fuel + 1, b :: t =>
    if b < 128 then b :: utf8DecodeF fuel t
    else if b < 192 then 65533 :: utf8DecodeF fuel t
    else if b < 224 then
      match t with
      | b2 :: t2 =>
        if utf8Cont b2 then ((b - 192) * 64 + (b2 - 128)) :: utf8DecodeF fuel t2
        else 65533 :: utf8DecodeF fuel t
      | [] => [65533]
    else if b < 240 then
      match t with
      | b2 :: b3 :: t3 =>
        if utf8Cont b2 && utf8Cont b3 then
          ((b - 224) * 4096 + (b2 - 128) * 64 + (b3 - 128)) :: utf8DecodeF fuel t3
        else 65533 :: utf8DecodeF fuel t
      | [b2] =>
        if utf8Cont b2 then [65533] else [65533, 65533]
      | [] => [65533]
    else
      match t with
      | b2 :: b3 :: b4 :: t4 =>
        if utf8Cont b2 && utf8Cont b3 && utf8Cont b4 then
          ((b - 240) * 262144 + (b2 - 128) * 4096 + (b3 - 128) * 64 + (b4 - 128)) ::
            utf8DecodeF fuel t4
        else 65533 :: utf8DecodeF fuel t
      | [b2, b3] =>
        if utf8Cont b2 && utf8Cont b3 then [65533] else [65533, 65533, 65533]
      | [b2] =>
        if utf8Cont b2 then [65533] else [65533, 65533]
      | [] => [65533]

def utf8Decode (l : List Nat) : List Nat := utf8DecodeF l.length l

def fieldNames : List (List Nat) :=
  [strCodes ("chara"), strCodes ("character"), strCodes ("tavern"),
   strCodes ("card"), strCodes ("data")]

/-- Array.prototype.find over the metadata records. -/
def findChunk : List MetadataChunk → List Nat → Option MetadataChunk
  | [], _ => none
  | c :: t, kw => if c.keyword = kw then some c else findChunk t kw

/-- The assignment data.version = extractVersionNumber(data) followed by
return data. On an object the member is written (the right-hand side is
evaluated against the object before the write). On an array the write
adds a non-index property; no candidate location exists on an array, so
the attached value is always the default 1.0, which is exactly what
every later read of a missing version member falls back to — the array
is therefore returned unchanged here. On null or a primitive the member
write throws, which the caller's catch turns into trying the next
field; that is the none case. -/
def attachVersion : JsonValue → Option JsonValue
  | .jobj ms => some (.jobj (ms.setKey kVersion (.jnum (extractVersionNumber (.jobj ms)))))
  | .jarr xs => some (.jarr xs)
  | _ => none

def parsedAttach : Option JsonValue → Option JsonValue
  | some d => attachVersion d
  | none => none

/-- One keyword field with non-empty text: base64-decode when the text
looks base64, JSON-parse, attach the version; any failure gives none so
the caller moves to the next keyword. -/
def tryField (txt : List Nat) : Option JsonValue :=
  if isBase64 txt then parsedAttach (jsonParse (utf8Decode (base64Decode txt)))
  else parsedAttach (jsonParse txt)

def fieldTry : Option MetadataChunk → Option JsonValue
  | some f => if f.text = [] then none else tryField f.text
  | none => none

def keywordLoop (metadata : List MetadataChunk) : List (List Nat) → Option JsonValue
  | [] => none
  | kw :: rest => orO (fieldTry (findChunk metadata kw)) (keywordLoop metadata rest)

def optTruthy : Option JsonValue → Bool
  | some v => jsTruthy v
  | none => false

/-- The has-common-fields test of the fallback scan. -/
def looksLikeCharacter (d : JsonValue) : Bool :=
  optTruthy (getField d kName) || optTruthy (getField d kCharName) ||
    optTruthy (getField d kDescription) || optTruthy (getField d kPersonality)

def fallbackTry : Option JsonValue → Option JsonValue
  | some d => if looksLikeCharacter d then attachVersion d else none
  | none => none

/-- The fallback scan over all records: long base64 text is decoded and
parsed, and accepted when it has one of the common character fields. -/
def fallbackLoop : List MetadataChunk → Option JsonValue
  | [] => none
  | c :: t =>
    if 100 < c.text.length ∧ isBase64 c.text = true then
      orO (fallbackTry (jsonParse (utf8Decode (base64Decode c.text)))) (fallbackLoop t)
    else fallbackLoop t

/-- pngUtils extractCharacterData: scan the tEXt records, try the known
keywords in order, then the long-base64 fallback; none models null. -/
def extractCharacterData (buffer : List Nat) : Option JsonValue :=
  let metadata := extractPngMetadata buffer
  orO (keywordLoop metadata fieldNames) (fallbackLoop metadata)

/-! ## ASCII facts: every serialized value is pure ASCII, so the ascii,
utf8 and base64 codecs act trivially on it -/

theorem all_mono {p q : Nat → Bool} (l : List Nat) (h : ∀ c, p c = true → q c = true)
    (hl : l.all p = true) : l.all q = true := by
  induction l with
  | nil => rfl
  | cons c t ih =>
    simp only [List.all_cons, Bool.and_eq_true] at hl ⊢
    exact ⟨h c hl.1, ih hl.2⟩

theorem asciiDecode_id (l : List Nat) (h : l.all (fun c => c < 128) = true) :
    asciiDecode l = l := by
  induction l with
  | nil => rfl
  | cons c t ih =>
    simp only [List.all_cons, Bool.and_eq_true, decide_eq_true_eq] at h
    simp only [asciiDecode, List.map_cons, List.cons.injEq]
    constructor
    · omega
    · simpa [asciiDecode] using ih h.2

theorem utf8DecodeF_ascii : ∀ (fuel : Nat) (l : List Nat), l.length ≤ fuel →
    l.all (fun c => c < 128) = true → utf8DecodeF fuel l = l := by
  intro fuel
  induction fuel with
  | zero =>
    intro l hl _
    cases l with
    | nil => rfl
    | cons c t => simp at hl
  | succ f ih =>
    intro l hl hall
    cases l with
    | nil => rfl
    | cons c t =>
      simp only [List.all_cons, Bool.and_eq_true, decide_eq_true_eq] at hall
      simp only [List.length_cons] at hl
      have hrec := ih t (by omega) hall.2
      simp only [utf8DecodeF, hall.1]
      simp [hall.1, hrec]

theorem utf8Decode_ascii (l : List Nat) (h : l.all (fun c => c < 128) = true) :
    utf8Decode l = l :=
  utf8DecodeF_ascii l.length l le_rfl h

theorem hexDigit_lt (d : Nat) (h : d < 16) : hexDigit d < 128 := by
  simp only [hexDigit]
  split <;> omega

theorem hex4_ascii (n : Nat) : (hex4 n).all (fun c => c < 128) = true := by
  simp only [hex4, List.all_cons, List.all_nil, Bool.and_eq_true, Bool.and_true,
    decide_eq_true_eq]
  refine ⟨?_, ?_, ?_, ?_⟩ <;> exact hexDigit_lt _ (Nat.mod_lt _ (by omega))

theorem escChar_ascii (c : Nat) : (escChar c).all (fun x => x < 128) = true := by
  simp only [escChar]
  split_ifs with h1 h2 h3 h4 h5 h6 h7 h8 h9 h10
  · rfl
  · rfl
  · rfl
  · rfl
  · rfl
  · rfl
  · rfl
  · simp [List.all_cons, hex4_ascii]
  · simp only [List.all_cons, List.all_nil, Bool.and_true, decide_eq_true_eq]
    omega
  · simp [List.all_cons, hex4_ascii]
  · simp [List.all_cons, List.all_append, hex4_ascii]

theorem escStr_ascii (s : List Nat) : (escStr s).all (fun x => x < 128) = true := by
  induction s with
  | nil => rfl
  | cons c t ih => simp [escStr, List.all_append, escChar_ascii, ih]

theorem natPrint_ascii (n : Nat) : (natPrint n).all (fun c => c < 128) = true :=
  all_mono _ (fun c hc => by simp [isDigitB] at hc ⊢; omega) (natPrint_all_digits n)

theorem replicate48_ascii (k : Nat) :
    (List.replicate k 48).all (fun c => c < 128) = true :=
  all_mono _ (fun c hc => by simp [isDigitB] at hc ⊢; omega) (replicate_all_digits k)

theorem jnumPrintMag_ascii (n e : Nat) :
    (jnumPrintMag n e).all (fun c => c < 128) = true := by
  simp only [jnumPrintMag]
  split_ifs
  · exact natPrint_ascii _
  · simp [List.all_append, List.all_cons, natPrint_ascii, replicate48_ascii]

theorem print_ascii (q : JNumber) : (q.print).all (fun c => c < 128) = true := by
  simp only [JNumber.print]
  split_ifs
  · simp [List.all_cons, jnumPrintMag_ascii]
  · exact jnumPrintMag_ascii _ _

mutual
theorem stringify_ascii (v : JsonValue) : (stringify v).all (fun c => c < 128) = true := by
  cases v with
  | jnull => rfl
  | jbool b => cases b <;> rfl
  | jnum q => simpa [stringify] using print_ascii q
  | jstr s => simp [stringify, List.all_cons, List.all_append, escStr_ascii]
  | jarr xs => simp [stringify, List.all_cons, List.all_append, stringifyArr_ascii xs]
  | jobj ms => simp [stringify, List.all_cons, List.all_append, stringifyObj_ascii ms]
theorem stringifyArr_ascii (xs : JsonArr) :
    (stringifyArr xs).all (fun c => c < 128) = true := by
  cases xs with
  | nil => rfl
  | cons v r =>
    cases r with
    | nil => simpa [stringifyArr] using stringify_ascii v
    | cons w r2 =>
      simp [stringifyArr, List.all_append, List.all_cons, stringify_ascii v,
        stringifyArr_ascii (JsonArr.cons w r2)]
theorem stringifyObj_ascii (ms : JsonObj) :
    (stringifyObj ms).all (fun c => c < 128) = true := by
  cases ms with
  | nil => rfl
  | cons k v r =>
    cases r with
    | nil =>
      simp [stringifyObj, List.all_append, List.all_cons, escStr_ascii k, stringify_ascii v]
    | cons k2 w r2 =>
      simp [stringifyObj, List.all_append, List.all_cons, escStr_ascii k, stringify_ascii v,
        stringifyObj_ascii (JsonObj.cons k2 w r2)]
end

/-! ## A PNG carrying one chara tEXt chunk -/

def crcPad : List Nat := [0, 0, 0, 0]

/-- A tEXt chunk holding the given keyword and payload, with a zero
checksum (the scanner never reads it). -/
def mkTextChunk (kw payload : List Nat) : RawChunk :=
  ⟨strCodes ("tEXt"), kw ++ 0 :: payload, crcPad⟩

/-- A PNG buffer whose only chunk is a chara tEXt record. -/
def mkCharaPng (payload : List Nat) : List Nat :=
  pngSignature ++ encodeChunk (mkTextChunk (strCodes ("chara")) payload)

theorem splitAtZero_marker (kw payload : List Nat)
    (h : kw.all (fun c => decide (c ≠ 0)) = true) :
    splitAtZero (kw ++ 0 :: payload) = some (kw, payload) := by
  induction kw with
  | nil => simp [splitAtZero]
  | cons c t ih =>
    simp only [List.all_cons, Bool.and_eq_true, decide_eq_true_eq] at h
    simp only [List.cons_append, splitAtZero, List.append_eq]
    rw [if_neg h.1, ih h.2]
    rfl

theorem extractPngMetadata_mkCharaPng (payload : List Nat)
    (hlen : payload.length < 4294967290)
    (hascii : payload.all (fun c => c < 128) = true) :
    extractPngMetadata (mkCharaPng payload) = [⟨strCodes ("chara"), payload⟩] := by
  rw [mkCharaPng, extractPngMetadata,
    if_pos (take_append_len pngSignature
      (encodeChunk (mkTextChunk (strCodes ("chara")) payload)) 8 rfl),
    drop_append_len pngSignature
      (encodeChunk (mkTextChunk (strCodes ("chara")) payload)) 8 rfl]
  rw [show encodeChunk (mkTextChunk (strCodes ("chara")) payload) =
      encodeChunk (mkTextChunk (strCodes ("chara")) payload) ++ [] from
    (List.append_nil _).symm]
  rw [extractLoop_chunk (mkTextChunk (strCodes ("chara")) payload)
    ⟨rfl, rfl, by
      simp only [mkTextChunk, List.length_append, List.length_cons]
      have h5 : (strCodes ("chara")).length = 5 := rfl
      omega⟩ [],
    extractLoop_short [] (by simp)]
  simp only [mkTextChunk]
  rw [textChunkOf, if_pos rfl, splitAtZero_marker _ _ (by decide)]
  simp only [txtRecord, List.append_nil]
  rw [asciiDecode_id _ (by decide), asciiDecode_id _ hascii]

theorem base64Encode_length : ∀ (bytes : List Nat),
    (base64Encode bytes).length = 4 * ((bytes.length + 2) / 3) := by
  intro bytes
  induction bytes using base64Encode.induct with
  | case1 => rfl
  | case2 b0 => simp [base64Encode]
  | case3 b0 b1 => simp [base64Encode]
  | case4 b0 b1 b2 t ih =>
    simp only [base64Encode, List.length_cons, ih]
    omega

theorem base64Encode_ascii : ∀ (bytes : List Nat),
    (base64Encode bytes).all (fun c => c < 128) = true := by
  intro bytes
  induction bytes using base64Encode.induct with
  | case1 => rfl
  | case2 b0 => simp [base64Encode, b64Char_lt_128]
  | case3 b0 b1 => simp [base64Encode, b64Char_lt_128]
  | case4 b0 b1 b2 t ih => simp [base64Encode, b64Char_lt_128, ih]

/-- Round trip through the card embedding: a well-formed object
serialized, base64-encoded and stored as the chara tEXt chunk of a PNG
is extracted back as the same object with a version member attached. -/
theorem extractCharacterData_mkCharaPng (ms : JsonObj)
    (hwf : JsonValue.wf (.jobj ms) = true)
    (hlen : 7 ≤ (stringify (.jobj ms)).length)
    (hbound : (stringify (.jobj ms)).length < 3221225465) :
    extractCharacterData (mkCharaPng (base64Encode (stringify (.jobj ms)))) =
      some (.jobj (ms.setKey kVersion (.jnum (extractVersionNumber (.jobj ms))))) := by
  have hblen : (base64Encode (stringify (.jobj ms))).length =
      4 * (((stringify (.jobj ms)).length + 2) / 3) := base64Encode_length _
  have hmeta : extractPngMetadata (mkCharaPng (base64Encode (stringify (.jobj ms)))) =
      [⟨strCodes ("chara"), base64Encode (stringify (.jobj ms))⟩] := by
    apply extractPngMetadata_mkCharaPng
    · omega
    · exact base64Encode_ascii _
  rw [extractCharacterData]
  simp only [hmeta]
  rw [fieldNames, keywordLoop, findChunk, if_pos rfl, fieldTry]
  rw [if_neg (by
    intro hc
    have := congrArg List.length hc
    simp only [List.length_nil] at this
    omega)]
  rw [tryField, if_pos (isBase64_encode _ (by omega))]
  rw [base64_roundtrip _ (all_mono _ (fun c hc => by
    simp only [decide_eq_true_eq] at hc ⊢
    omega) (stringify_ascii _))]
  rw [utf8Decode_ascii _ (stringify_ascii _)]
  rw [jsonParse_stringify _ hwf]
  rfl

/-! ## The Dropbox client orchestration (dropbox/client.ts), modelled on
a first-order environment: the remote folder contents, the local
directory, and the failure behaviour of the network primitives recorded
as lists of failing filenames; every remote operation is logged in a
trace -/

structure RemoteEntry where
  name : List Nat
  isFolder : Bool
  content : List Nat
deriving DecidableEq, Repr

structure LocalEntry where
  name : List Nat
  isDir : Bool
  content : List Nat
deriving DecidableEq, Repr

structure Env where
  clientInit : Bool
  remote : List RemoteEntry
  localDir : Option (List LocalEntry)
  downloadFails : List (List Nat)
  uploadFails : List (List Nat)
  deleteFails : List (List Nat)
deriving DecidableEq, Repr

inductive RAction where
  | listFolder
  | getMetadata
  | download (name : List Nat)
  | upload (name : List Nat) (content : List Nat)
  | delete (name : List Nat)
deriving DecidableEq, Repr

def findRemote : List RemoteEntry → List Nat → Option RemoteEntry
  | [], _ => none
  | e :: t, n => if e.name = n then some e else findRemote t n

/-- filesUpload in overwrite mode: replace the entry or append a new
file entry. -/
def upsertRemote : List RemoteEntry → List Nat → List Nat → List RemoteEntry
  | [], n, c => [⟨n, false, c⟩]
  | e :: t, n, c => if e.name = n then ⟨n, false, c⟩ :: t else e :: upsertRemote t n c

def deleteRemote (r : List RemoteEntry) (n : List Nat) : List RemoteEntry :=
  r.filter (fun e => decide (e.name ≠ n))

def dotPng : List Nat := strCodes (".png")
def dotJson : List Nat := strCodes (".json")

def downloadOf : Option RemoteEntry → Option (List Nat)
  | some e => if e.isFolder then none else some e.content
  | none => none

/-- downloadToCache: null when the client is missing, the transfer
fails, the file is absent, or the path names a folder. -/
def downloadToCache (env : Env) (n : List Nat) : Option (List Nat) :=
  if env.clientInit = false then none
  else if n ∈ env.downloadFails then none
  else downloadOf (findRemote env.remote n)

def versionNumO : Option JsonValue → Option JNumber
  | some v => if jsTruthy v then jsToNumber v else some ⟨1, 0⟩
  | none => some ⟨1, 0⟩

/-- Number(data.version || 1.0): a falsy or missing version member
falls back to 1.0; none models NaN coming out of Number(). -/
def versionNum (d : JsonValue) : Option JNumber := versionNumO (getField d kVersion)

def numGtB : Option JNumber → Option JNumber → Bool
  | some a, some b => JNumber.ltB b a
  | _, _ => false

def numEqB : Option JNumber → Option JNumber → Bool
  | some a, some b => JNumber.eqB a b
  | _, _ => false

/-- The version comparison of shouldUploadFile once both sides are
extracted: upload only on a strictly greater local version; the equal
branch and the else branch (which also catches NaN comparisons) both
skip. -/
def shouldUploadRemoteData (localData : JsonValue) : Option JsonValue → Bool
  | none => true
  | some remoteData =>
    if numGtB (versionNum localData) (versionNum remoteData) then true
    else if numEqB (versionNum localData) (versionNum remoteData) then false
    else false

def shouldUploadRemote (localData : JsonValue) : Option (List Nat) → Bool
  | none => true
  | some rc => shouldUploadRemoteData localData (extractCharacterData rc)

def shouldUploadLocal (env : Env) (n : List Nat) :
    Option JsonValue → Bool × List RAction
  | none => (true, [])
  | some localData =>
    (shouldUploadRemote localData (downloadToCache env n), [RAction.download n])

/-- shouldUploadFile of client.ts on the local file's bytes; the paired
trace holds the download attempt when one is made. -/
def shouldUploadFile (env : Env) (localContent : List Nat) (n : List Nat) :
    Bool × List RAction :=
  shouldUploadLocal env n (extractCharacterData localContent)

def tagsOfArr : JsonArr → List (List Nat)
  | .nil => []
  | .cons v r => trimJs (jsToString v) :: tagsOfArr r

/-- convertTagsToArray: an array maps String().trim() over its
elements, a string splits at commas and trims each piece, anything else
gives the empty list. -/
def convertTagsToArray : JsonValue → List (List Nat)
  | .jarr xs => tagsOfArr xs
  | .jstr s => (splitComma s).map trimJs
  | _ => []

def hasExcluded (tags excl : List (List Nat)) : Bool :=
  tags.any (fun t => decide (t ∈ excl))

def tagArrayOfField : Option JsonValue → List (List Nat)
  | some v => convertTagsToArray v
  | none => []

/-- The PNG branch's tag guard: the exclusion test runs only when the
extraction succeeded and the tags member is truthy. -/
def pngTagSkip (excl : List (List Nat)) : Option JsonValue → Bool
  | some d =>
    optTruthy (getField d kTags) &&
      hasExcluded (tagArrayOfField (getField d kTags)) excl
  | none => false

def hasTagsKey : JsonValue → Bool
  | .jobj ms => ms.hasKey kTags
  | _ => false

def isObjectType : JsonValue → Bool
  | .jobj _ => true
  | .jarr _ => true
  | .jnull => true
  | _ => false

/-- The JSON branch's tag guard: jsonData truthy, of object type, with
a tags key, and then the exclusion test. -/
def jsonTagSkip (excl : List (List Nat)) (d : JsonValue) : Bool :=
  jsTruthy d && isObjectType d && hasTagsKey d &&
    hasExcluded (tagArrayOfField (getField d kTags)) excl

structure UpOut where
  ok : Bool
  env : Env
  trace : List RAction
deriving DecidableEq, Repr

def isFolderO : Option RemoteEntry → Bool
  | some e => e.isFolder
  | none => false

def uploadFolderClash (r : List RemoteEntry) (n : List Nat) : Bool :=
  isFolderO (findRemote r n)

/-- The final filesUpload step shared by every branch that decides to
upload, with its catch: a failing transfer, an upload over an existing
folder entry included, returns false with the remote state
unchanged. -/
def doUpload (env : Env) (n content : List Nat) (pre : List RAction) : UpOut :=
  if n ∈ env.uploadFails then ⟨false, env, pre ++ [.upload n content]⟩
  else if uploadFolderClash env.remote n then ⟨false, env, pre ++ [.upload n content]⟩
  else ⟨true, { env with remote := upsertRemote env.remote n content },
    pre ++ [.upload n content]⟩

def uploadAfterDecision (env : Env) (n content : List Nat) :
    Bool × List RAction → UpOut
  | (false, tr) => ⟨false, env, tr⟩
  | (true, tr) => doUpload env n content tr

def pngFlow (env : Env) (excl : List (List Nat)) (n content : List Nat) : UpOut :=
  if pngTagSkip excl (extractCharacterData content) then ⟨false, env, []⟩
  else uploadAfterDecision env n content (shouldUploadFile env content n)

/-- The JSON branch: a parse failure is caught with "continue with
upload anyway", so it goes straight to the transfer. -/
def jsonFlow (env : Env) (excl : List (List Nat)) (n content : List Nat) :
    Option JsonValue → UpOut
  | none => doUpload env n content []
  | some d =>
    if jsonTagSkip excl d then ⟨false, env, []⟩
    else uploadAfterDecision env n content (shouldUploadFile env content n)

/-- uploadCharacter of client.ts. -/
def uploadCharacter (env : Env) (excl : List (List Nat)) (n content : List Nat) : UpOut :=
  if env.clientInit = false then ⟨false, env, []⟩
  else if dotPng.isSuffixOf n then pngFlow env excl n content
  else if dotJson.isSuffixOf n then
    jsonFlow env excl n content (jsonParse (utf8Decode content))
  else ⟨false, env, []⟩

structure RemOut where
  env : Env
  removed : Nat
  trace : List RAction
deriving DecidableEq, Repr

/-- The removal pass of performSync over the listed names:
non-character names are skipped; a name is kept iff the allow list is
empty or contains it; a delete that fails (network, or no entry left to
delete) is logged and skipped without aborting the pass; the counter
moves once per successful delete. -/
def remFailCons (n : List Nat) (r : RemOut) : RemOut :=
  ⟨r.env, r.removed, .delete n :: r.trace⟩

def remOkCons (n : List Nat) (r : RemOut) : RemOut :=
  ⟨r.env, r.removed + 1, .delete n :: r.trace⟩

def removalPass (env : Env) (allow : List (List Nat)) :
    List (List Nat) → RemOut
  | [] => ⟨env, 0, []⟩
  | n :: rest =>
    if !(dotPng.isSuffixOf n || dotJson.isSuffixOf n) then removalPass env allow rest
    else if allow = [] ∨ n ∈ allow then removalPass env allow rest
    else if n ∈ env.deleteFails ∨ findRemote env.remote n = none then
      remFailCons n (removalPass env allow rest)
    else
      remOkCons n
        (removalPass { env with remote := deleteRemote env.remote n } allow rest)

structure PassOut where
  env : Env
  count : Nat
  trace : List RAction
deriving DecidableEq, Repr

/-- The upload pass: directories are skipped, every remaining file goes
through uploadCharacter, and a true outcome moves the counter. -/
def upCons (u : UpOut) (r : PassOut) : PassOut :=
  ⟨r.env, (if u.ok then r.count + 1 else r.count), u.trace ++ r.trace⟩

def uploadPass (excl : List (List Nat)) (env : Env) : List LocalEntry → PassOut
  | [] => ⟨env, 0, []⟩
  | f :: rest =>
    if f.isDir then uploadPass excl env rest
    else
      upCons (uploadCharacter env excl f.name f.content)
        (uploadPass excl (uploadCharacter env excl f.name f.content).env rest)

structure SyncResult where
  success : Bool
  count : Nat
  removed : Nat
deriving DecidableEq, Repr

structure SyncOut where
  res : SyncResult
  env : Env
  trace : List RAction
deriving DecidableEq, Repr

/-- The listing's file filter: entries tagged file, by name. -/
def remoteFileNames (r : List RemoteEntry) : List (List Nat) :=
  (r.filter (fun e => e.isFolder = false)).map (fun e => e.name)

/-- The local filter: character file names, narrowed by the allow list
when one is given. -/
def charFilter (allow : List (List Nat)) (files : List LocalEntry) : List LocalEntry :=
  let filtered :=
    files.filter (fun f => dotPng.isSuffixOf f.name || dotJson.isSuffixOf f.name)
  if allow = [] then filtered else filtered.filter (fun f => decide (f.name ∈ allow))

def syncFinish (rem : RemOut) (up : PassOut) : SyncOut :=
  ⟨⟨true, up.count, rem.removed⟩, up.env,
    .getMetadata :: .listFolder :: (rem.trace ++ up.trace)⟩

def syncUploadPhase (excl allow : List (List Nat)) (rem : RemOut) :
    Option (List LocalEntry) → SyncOut
  | none =>
    ⟨⟨false, 0, rem.removed⟩, rem.env, .getMetadata :: .listFolder :: rem.trace⟩
  | some files =>
    syncFinish rem (uploadPass excl rem.env (charFilter allow files))

/-- performSync of client.ts: the client guard, the characters-folder
probe, the listing, the removal pass, the local-directory check, the
filtered upload pass. The folder probe is modelled as its metadata
call alone: the folder's existence is part of the remote state here and
the creation path is not exercised by any property below. -/
def performSync (env : Env) (excl allow : List (List Nat)) : SyncOut :=
  if env.clientInit = false then ⟨⟨false, 0, 0⟩, env, []⟩
  else
    syncUploadPhase excl allow (removalPass env allow (remoteFileNames env.remote))
      env.localDir

/-! ## The token-refresh wrapper (executeWithTokenRefresh) -/

inductive CallRes where
  | ok (v : Nat)
  | err (status : Nat) (tag : List Nat)
deriving DecidableEq, Repr

def isOkC : CallRes → Bool
  | .ok _ => true
  | .err _ _ => false

/-- The expired-credential classification of the wrapper: status 401
with the expired_access_token tag. -/
def isExpiredSignal : CallRes → Bool
  | .ok _ => false
  | .err status tag =>
    decide (status = 401) && decide (tag = strCodes ("expired_access_token"))

/-- The two calls a run of the wrapper can make, abstracted to their
outcomes, with the refresh credential's availability and the refresh
call's result. -/
structure RefreshCtx where
  firstCall : CallRes
  secondCall : CallRes
  refreshAvail : Bool
  refreshOk : Bool
deriving DecidableEq, Repr

structure WrapOut where
  result : CallRes
  calls : Nat
  refreshed : Bool
deriving DecidableEq, Repr

/-- executeWithTokenRefresh: run the call; on an expired-credential
failure with a refresh credential at hand, refresh and retry once,
returning the retry's outcome whatever it is; otherwise the original
outcome stands unchanged (a thrown error and a returned value are both
the call's recorded outcome here). -/
def executeWithTokenRefresh (ctx : RefreshCtx) : WrapOut :=
  if isOkC ctx.firstCall then ⟨ctx.firstCall, 1, false⟩
  else if isExpiredSignal ctx.firstCall && ctx.refreshAvail then
    if ctx.refreshOk then ⟨ctx.secondCall, 2, true⟩
    else ⟨ctx.firstCall, 1, false⟩
  else ⟨ctx.firstCall, 1, false⟩

/-! ## The version chain, declaratively, and the chain the spec words -/

/-- The six locations of the source chain as a priority list. -/
def amendedVerChain (data : JsonValue) : List (Option JsonValue) :=
  [getField data kCharacterVersion, getField data kVersion,
   getField2 data kMetadata kCharacterVersion, getField2 data kMetadata kVersion,
   getField2 data kCreator kCharacterVersion, getField2 data kCreator kVersion]

/-- First non-undefined candidate of a priority list. -/
def firstSome : List (Option JsonValue) → Option JsonValue
  | [] => none
  | some v :: _ => some v
  | none :: t => firstSome t

/-- A candidate as the spec admits one: neither undefined nor null. -/
def specDefined : Option JsonValue → Option JsonValue
  | some .jnull => none
  | some v => some v
  | none => none

/-- deriveVersion as the specification words it, written from the
spec for comparison with the source's extractVersionNumber: nine
locations in the spec's priority order, a candidate only counts when it
is neither undefined nor null, then String coercion, parseFloat, and
1.0 for NaN or no candidate. -/
def specDeriveVersion (data : JsonValue) : JNumber :=
  floatOrOne (parseFloatJS (jsToString (candidateOrDefault
    (firstSome [
      specDefined (bindField (getField2 data kData kData) kCharacterVersion),
      specDefined (getField data kCharacterVersion),
      specDefined (getField2 data kData kCharacterVersion),
      specDefined (getField data kVersion),
      specDefined (getField2 data kData kVersion),
      specDefined (getField2 data kMetadata kCharacterVersion),
      specDefined (getField2 data kMetadata kVersion),
      specDefined (getField2 data kCreator kCharacterVersion),
      specDefined (getField2 data kCreator kVersion)]))))

theorem firstSome_cons (a : Option JsonValue) (t : List (Option JsonValue)) :
    firstSome (a :: t) = orO a (firstSome t) := by
  cases a <;> rfl

theorem orO_none_right (a : Option JsonValue) : orO a none = a := by
  cases a <;> rfl

/-- Claim C6: the version derivation of the extractor takes the first
non-undefined candidate of exactly six locations — character_version,
version, metadata.character_version, metadata.version,
creator.character_version, creator.version — String-coerces it, parses
it as a float, and yields 1.0 on NaN or no candidate; a null candidate
is taken (and parses to 1.0), not skipped, and the three data.*
locations of the spec's nine-location chain are not consulted. -/
theorem C6_version_chain (data : JsonValue) :
    extractVersionNumber data =
      floatOrOne (parseFloatJS (jsToString (candidateOrDefault
        (firstSome (amendedVerChain data))))) := by
  rw [extractVersionNumber]
  simp only [amendedVerChain, firstSome_cons, firstSome, orO_none_right, verCandidate]

def objNested : JsonObj :=
  .cons kData (.jobj (.cons kCharacterVersion (.jstr [51]) .nil)) .nil

/-- Claim C6 counterexample: on the object with
data.character_version = "3" the spec's nine-location chain derives
3.0 while the code's six-location chain finds no candidate and
defaults to 1.0. -/
theorem C6_version_chain_counterexample :
    specDeriveVersion (.jobj objNested) = ⟨3, 0⟩ ∧
    extractVersionNumber (.jobj objNested) = ⟨1, 0⟩ :=
  ⟨rfl, rfl⟩

/-! ## Claim theorems: the uninitialized-client guard -/

/-- Claim C10: with the remote client uninitialized, performSync
returns success false with zero counts at once, the environment
unchanged and not one remote operation traced; uploadCharacter likewise
returns false with no effect. -/
theorem C10_uninitialized_guard (env : Env) (excl allow : List (List Nat))
    (n content : List Nat) (h : env.clientInit = false) :
    performSync env excl allow = ⟨⟨false, 0, 0⟩, env, []⟩ ∧
    uploadCharacter env excl n content = ⟨false, env, []⟩ := by
  constructor
  · rw [performSync, if_pos h]
  · rw [uploadCharacter, if_pos h]

def envOff : Env := ⟨false, [⟨[97], false, [1]⟩], some [⟨[98], false, [2]⟩], [], [], []⟩

theorem C10_uninitialized_guard_witness :
    performSync envOff [] [] = ⟨⟨false, 0, 0⟩, envOff, []⟩ ∧
    uploadCharacter envOff [] [99] [3] = ⟨false, envOff, []⟩ :=
  C10_uninitialized_guard envOff [] [] [99] [3] rfl

/-! ## Claim theorems: the token-refresh wrapper -/

/-- Claim C5: the wrapper returns a successful first call's outcome
unchanged after exactly one call; on an expired-credential failure with
a refresh credential it refreshes and retries exactly once, returning
the retry's outcome whether that is a success or a failure; on refresh
failure, or when the failure is not an expired-credential signal, it
propagates the original failure unchanged without retrying. -/
theorem C5_token_refresh_wrapper (ctx : RefreshCtx) :
    (isOkC ctx.firstCall = true →
      executeWithTokenRefresh ctx = ⟨ctx.firstCall, 1, false⟩) ∧
    (isExpiredSignal ctx.firstCall = true → ctx.refreshAvail = true →
      ctx.refreshOk = true →
      executeWithTokenRefresh ctx = ⟨ctx.secondCall, 2, true⟩) ∧
    (isExpiredSignal ctx.firstCall = true → ctx.refreshAvail = true →
      ctx.refreshOk = false →
      executeWithTokenRefresh ctx = ⟨ctx.firstCall, 1, false⟩) ∧
    ((isExpiredSignal ctx.firstCall = false ∨ ctx.refreshAvail = false) →
      executeWithTokenRefresh ctx = ⟨ctx.firstCall, 1, false⟩) := by
  have hexp : isExpiredSignal ctx.firstCall = true → isOkC ctx.firstCall = false := by
    intro h
    cases hc : ctx.firstCall with
    | ok v => rw [hc] at h; simp [isExpiredSignal] at h
    | err s t => rfl
  refine ⟨?_, ?_, ?_, ?_⟩
  · intro h
    rw [executeWithTokenRefresh, if_pos h]
  · intro h1 h2 h3
    rw [executeWithTokenRefresh, if_neg (by rw [hexp h1]; exact Bool.false_ne_true),
      if_pos (by rw [h1, h2]; rfl), if_pos h3]
  · intro h1 h2 h3
    rw [executeWithTokenRefresh, if_neg (by rw [hexp h1]; exact Bool.false_ne_true),
      if_pos (by rw [h1, h2]; rfl), if_neg (by rw [h3]; exact Bool.false_ne_true)]
  · intro h1
    by_cases hok : isOkC ctx.firstCall = true
    · rw [executeWithTokenRefresh, if_pos hok]
    · rw [executeWithTokenRefresh, if_neg hok, if_neg (by
        rcases h1 with h | h <;> rw [h] <;> simp)]

/-! ## Claim theorems: extractor graceful degradation -/

/-- Claim C7: a buffer whose first eight bytes are not the PNG
signature yields the empty chunk list and a null card extraction; and a
buffer with a valid signature, well-formed chunks and a truncated final
chunk (its declared length overruns the remaining bytes) yields exactly
the tEXt records of the chunks before the truncation point. -/
theorem C7_extractor_graceful (buffer : List Nat) (hsig : buffer.take 8 ≠ pngSignature)
    (cs : List RawChunk) (hwf : ∀ c ∈ cs, chunkWF c) (tail : List Nat)
    (h8 : 8 ≤ tail.length) (htr : tail.length < 8 + readUInt32BE (tail.take 4)) :
    (extractPngMetadata buffer = [] ∧ extractCharacterData buffer = none) ∧
    extractPngMetadata (pngSignature ++ ((cs.map encodeChunk).flatten ++ tail)) =
      (cs.map (fun c => textChunkOf c.ctype c.cdata)).flatten := by
  have hempty : extractPngMetadata buffer = [] := by
    rw [extractPngMetadata, if_neg hsig]
  refine ⟨⟨hempty, ?_⟩, extractPngMetadata_spec cs hwf tail h8 htr⟩
  rw [extractCharacterData]
  simp only [hempty]
  rfl

def truncChunk : RawChunk := ⟨strCodes ("tEXt"), [99, 0, 104], [7, 7, 7, 7]⟩

theorem C7_extractor_graceful_witness :
    (extractPngMetadata [1, 2, 3] = [] ∧ extractCharacterData [1, 2, 3] = none) ∧
    extractPngMetadata (pngSignature ++
        (([truncChunk].map encodeChunk).flatten ++ [0, 0, 1, 0, 116, 69, 88, 116])) =
      ([truncChunk].map (fun c => textChunkOf c.ctype c.cdata)).flatten :=
  C7_extractor_graceful [1, 2, 3] (by decide) [truncChunk]
    (by
      intro c hc
      simp only [List.mem_singleton] at hc
      subst hc
      exact ⟨rfl, rfl, by decide⟩)
    [0, 0, 1, 0, 116, 69, 88, 116] (by decide) (by decide)

/-! ## The removal pass characterized -/

/-- A listed name the removal pass deletes: a character file name that
the allow list, when non-empty, does not contain. -/
def delTarget (allow : List (List Nat)) (n : List Nat) : Bool :=
  (dotPng.isSuffixOf n || dotJson.isSuffixOf n) &&
    !(decide (allow = []) || decide (n ∈ allow))

theorem removalPass_empty_allow (env : Env) (names : List (List Nat)) :
    removalPass env [] names = ⟨env, 0, []⟩ := by
  induction names with
  | nil => rfl
  | cons n rest ih =>
    rw [removalPass]
    by_cases h : (dotPng.isSuffixOf n || dotJson.isSuffixOf n) = true
    · rw [if_neg (by rw [h]; simp), if_pos (Or.inl rfl)]
      exact ih
    · simp only [Bool.not_eq_true] at h
      rw [if_pos (by rw [h]; rfl)]
      exact ih

theorem findRemote_deleteRemote (r : List RemoteEntry) (n m : List Nat) (h : m ≠ n) :
    findRemote (deleteRemote r n) m = findRemote r m := by
  induction r with
  | nil => rfl
  | cons e t ih =>
    by_cases he : e.name = n
    · have hd : deleteRemote (e :: t) n = deleteRemote t n := by
        simp [deleteRemote, List.filter_cons, he]
      rw [hd, ih, findRemote, if_neg (fun hm => h (hm.symm.trans he))]
    · have hd : deleteRemote (e :: t) n = e :: deleteRemote t n := by
        simp [deleteRemote, List.filter_cons, he]
      rw [hd, findRemote, findRemote, ih]

theorem remoteFileNames_cons (e : RemoteEntry) (t : List RemoteEntry) :
    remoteFileNames (e :: t) =
      if e.isFolder = false then e.name :: remoteFileNames t else remoteFileNames t := by
  simp only [remoteFileNames, List.filter_cons]
  by_cases hf : e.isFolder = false
  · simp [hf]
  · simp [hf]

theorem findRemote_of_listed (r : List RemoteEntry) (n : List Nat)
    (h : n ∈ remoteFileNames r) : findRemote r n ≠ none := by
  induction r with
  | nil => simp [remoteFileNames] at h
  | cons e t ih =>
    rw [findRemote]
    by_cases he : e.name = n
    · rw [if_pos he]
      simp
    · rw [if_neg he]
      apply ih
      rw [remoteFileNames_cons] at h
      by_cases hf : e.isFolder = false
      · rw [if_pos hf] at h
        rcases List.mem_cons.mp h with h1 | h1
        · exact absurd h1.symm he
        · exact h1
      · rwa [if_neg hf] at h

theorem removalPass_spec (allow : List (List Nat)) :
    ∀ (names : List (List Nat)) (env : Env), names.Nodup →
    (∀ n ∈ names, findRemote env.remote n ≠ none) →
    removalPass env allow names =
      ⟨{ env with remote := env.remote.filter (fun e =>
           !(decide (e.name ∈ names) && delTarget allow e.name &&
             !(decide (e.name ∈ env.deleteFails)))) },
        (names.filter (fun n => delTarget allow n &&
           !(decide (n ∈ env.deleteFails)))).length,
        (names.filter (delTarget allow)).map RAction.delete⟩ := by
  intro names
  induction names with
  | nil =>
    intro env _ _
    simp [removalPass]
  | cons n rest ih =>
    intro env hnodup hex
    obtain ⟨hnr, hrest⟩ := List.nodup_cons.mp hnodup
    rw [removalPass]
    by_cases hchar : (dotPng.isSuffixOf n || dotJson.isSuffixOf n) = true
    · rw [if_neg (by rw [hchar]; simp)]
      by_cases hallow : allow = [] ∨ n ∈ allow
      · rw [if_pos hallow]
        rw [ih env hrest (fun m hm => hex m (List.mem_cons_of_mem _ hm))]
        have hdt : delTarget allow n = false := by
          rcases hallow with h | h <;> simp [delTarget, h]
        have hrem : env.remote.filter (fun e =>
            !(decide (e.name ∈ rest) && delTarget allow e.name &&
              !(decide (e.name ∈ env.deleteFails)))) =
          env.remote.filter (fun e =>
            !(decide (e.name ∈ n :: rest) && delTarget allow e.name &&
              !(decide (e.name ∈ env.deleteFails)))) := by
          apply List.filter_congr
          intro e he
          by_cases hen : e.name = n
          · simp [hen, hdt]
          · simp [List.mem_cons, hen]
        have hcnt : rest.filter (fun m => delTarget allow m &&
            !(decide (m ∈ env.deleteFails))) =
          (n :: rest).filter (fun m => delTarget allow m &&
            !(decide (m ∈ env.deleteFails))) := by
          simp [List.filter_cons, hdt]
        have htr : rest.filter (delTarget allow) = (n :: rest).filter (delTarget allow) := by
          simp [List.filter_cons, hdt]
        rw [hrem, hcnt, htr]
      · rw [if_neg hallow]
        have hdt : delTarget allow n = true := by
          push_neg at hallow
          simp [delTarget, hchar, hallow.1, hallow.2]
        by_cases hfail : n ∈ env.deleteFails
        · rw [if_pos (Or.inl hfail)]
          rw [ih env hrest (fun m hm => hex m (List.mem_cons_of_mem _ hm))]
          simp only [remFailCons]
          have hrem : env.remote.filter (fun e =>
              !(decide (e.name ∈ rest) && delTarget allow e.name &&
                !(decide (e.name ∈ env.deleteFails)))) =
            env.remote.filter (fun e =>
              !(decide (e.name ∈ n :: rest) && delTarget allow e.name &&
                !(decide (e.name ∈ env.deleteFails)))) := by
            apply List.filter_congr
            intro e he
            by_cases hen : e.name = n
            · simp [hen, hdt, hfail, hnr]
            · simp [List.mem_cons, hen]
          have hcnt : rest.filter (fun m => delTarget allow m &&
              !(decide (m ∈ env.deleteFails))) =
            (n :: rest).filter (fun m => delTarget allow m &&
              !(decide (m ∈ env.deleteFails))) := by
            simp [List.filter_cons, hdt, hfail]
          have htr : (n :: rest).filter (delTarget allow) = n :: rest.filter (delTarget allow) := by
            simp [List.filter_cons, hdt]
          rw [hrem, hcnt, htr]
          rfl
        · have hfind := hex n (List.mem_cons_self n rest)
          rw [if_neg (by
            rintro (h | h)
            · exact hfail h
            · exact hfind h)]
          have hexr : ∀ m ∈ rest,
              findRemote ({ env with remote := deleteRemote env.remote n }).remote m ≠ none := by
            intro m hm
            have hmn : m ≠ n := fun hmn => hnr (hmn ▸ hm)
            show findRemote (deleteRemote env.remote n) m ≠ none
            rw [findRemote_deleteRemote _ _ _ hmn]
            exact hex m (List.mem_cons_of_mem _ hm)
          rw [ih _ hrest hexr]
          simp only [remOkCons]
          have hrem : (deleteRemote env.remote n).filter (fun e =>
              !(decide (e.name ∈ rest) && delTarget allow e.name &&
                !(decide (e.name ∈ env.deleteFails)))) =
            env.remote.filter (fun e =>
              !(decide (e.name ∈ n :: rest) && delTarget allow e.name &&
                !(decide (e.name ∈ env.deleteFails)))) := by
            rw [deleteRemote, List.filter_filter]
            apply List.filter_congr
            intro e he
            by_cases hen : e.name = n
            · simp [hen, hdt, hfail]
            · simp [List.mem_cons, hen]
          have hcnt : (rest.filter (fun m => delTarget allow m &&
              !(decide (m ∈ env.deleteFails)))).length + 1 =
            ((n :: rest).filter (fun m => delTarget allow m &&
              !(decide (m ∈ env.deleteFails)))).length := by
            simp [List.filter_cons, hdt, hfail]
          have htr : (n :: rest).filter (delTarget allow) = n :: rest.filter (delTarget allow) := by
            simp [List.filter_cons, hdt]
          rw [hcnt, htr]
          simp only [List.map_cons]
          rw [hrem]
    · simp only [Bool.not_eq_true] at hchar
      rw [if_pos (by rw [hchar]; rfl)]
      rw [ih env hrest (fun m hm => hex m (List.mem_cons_of_mem _ hm))]
      have hdt : delTarget allow n = false := by
        simp [delTarget, hchar]
      have hrem : env.remote.filter (fun e =>
          !(decide (e.name ∈ rest) && delTarget allow e.name &&
            !(decide (e.name ∈ env.deleteFails)))) =
        env.remote.filter (fun e =>
          !(decide (e.name ∈ n :: rest) && delTarget allow e.name &&
            !(decide (e.name ∈ env.deleteFails)))) := by
        apply List.filter_congr
        intro e he
        by_cases hen : e.name = n
        · simp [hen, hdt]
        · simp [List.mem_cons, hen]
      have hcnt : rest.filter (fun m => delTarget allow m &&
          !(decide (m ∈ env.deleteFails))) =
        (n :: rest).filter (fun m => delTarget allow m &&
          !(decide (m ∈ env.deleteFails))) := by
        simp [List.filter_cons, hdt]
      have htr : rest.filter (delTarget allow) = (n :: rest).filter (delTarget allow) := by
        simp [List.filter_cons, hdt]
      rw [hrem, hcnt, htr]

/-! ## The traces of the upload side hold no delete -/

theorem doUpload_trace (env : Env) (n content : List Nat) (pre : List RAction) :
    (doUpload env n content pre).trace = pre ++ [.upload n content] := by
  rw [doUpload]
  split_ifs <;> rfl

theorem shouldUploadFile_trace (env : Env) (content n : List Nat) :
    (shouldUploadFile env content n).2 = [] ∨
    (shouldUploadFile env content n).2 = [RAction.download n] := by
  rw [shouldUploadFile]
  cases h : extractCharacterData content with
  | none => left; rfl
  | some d => right; rfl

theorem shouldUploadFile_no_delete (env : Env) (content n m : List Nat) :
    RAction.delete m ∉ (shouldUploadFile env content n).2 := by
  rcases shouldUploadFile_trace env content n with h | h <;> rw [h] <;> simp

theorem uploadAfterDecision_no_delete (env : Env) (n content m : List Nat)
    (p : Bool × List RAction) (hp : RAction.delete m ∉ p.2) :
    RAction.delete m ∉ (uploadAfterDecision env n content p).trace := by
  rcases p with ⟨ok, tr⟩
  cases ok
  · simpa [uploadAfterDecision] using hp
  · simp only [uploadAfterDecision]
    rw [doUpload_trace]
    simp only [List.mem_append, List.mem_singleton] at hp ⊢
    rintro (h | h)
    · exact hp h
    · cases h

theorem uploadCharacter_no_delete (env : Env) (excl : List (List Nat))
    (n content m : List Nat) :
    RAction.delete m ∉ (uploadCharacter env excl n content).trace := by
  rw [uploadCharacter]
  split_ifs with h1 h2 h3
  · simp
  · rw [pngFlow]
    split_ifs with ht
    · simp
    · exact uploadAfterDecision_no_delete env n content m _
        (shouldUploadFile_no_delete env content n m)
  · cases hp : jsonParse (utf8Decode content) with
    | none =>
      simp only [jsonFlow]
      rw [doUpload_trace]
      simp
    | some d =>
      simp only [jsonFlow]
      split_ifs with ht
      · simp
      · exact uploadAfterDecision_no_delete env n content m _
          (shouldUploadFile_no_delete env content n m)
  · simp

theorem uploadPass_no_delete (excl : List (List Nat)) (m : List Nat) :
    ∀ (files : List LocalEntry) (env : Env),
    RAction.delete m ∉ (uploadPass excl env files).trace := by
  intro files
  induction files with
  | nil =>
    intro env
    simp [uploadPass]
  | cons f rest ih =>
    intro env
    rw [uploadPass]
    split_ifs with h
    · exact ih env
    · simp only [upCons]
      intro hmem
      rcases List.mem_append.mp hmem with hh | hh
      · exact uploadCharacter_no_delete env excl f.name f.content m hh
      · exact ih _ hh

/-- Claim C2: in a reconciliation run the removal pass keeps a listed
character-named remote file iff the allow list is empty or contains its
name and deletes it otherwise — a failing delete is attempted, logged
and skipped without aborting the pass, and only successful deletes move
the counter, one each; and with an empty allow list the whole run
performs zero removals and issues no delete at all, whatever the remote
set holds. -/
theorem C2_removal_pass (env : Env) (excl allow : List (List Nat))
    (hnodup : (remoteFileNames env.remote).Nodup) :
    removalPass env allow (remoteFileNames env.remote) =
      ⟨{ env with remote := env.remote.filter (fun e =>
           !(decide (e.name ∈ remoteFileNames env.remote) && delTarget allow e.name &&
             !(decide (e.name ∈ env.deleteFails)))) },
        ((remoteFileNames env.remote).filter (fun n => delTarget allow n &&
           !(decide (n ∈ env.deleteFails)))).length,
        ((remoteFileNames env.remote).filter (delTarget allow)).map RAction.delete⟩ ∧
    (performSync env excl []).res.removed = 0 ∧
    (∀ m, RAction.delete m ∉ (performSync env excl []).trace) := by
  refine ⟨removalPass_spec allow _ env hnodup
    (fun n hn => findRemote_of_listed env.remote n hn), ?_, ?_⟩
  · rw [performSync]
    split_ifs with h
    · rfl
    · rw [removalPass_empty_allow]
      cases hl : env.localDir with
      | none => rfl
      | some files => rfl
  · intro m
    rw [performSync]
    split_ifs with h
    · simp
    · rw [removalPass_empty_allow]
      cases hl : env.localDir with
      | none => simp [syncUploadPhase]
      | some files =>
        simp only [syncUploadPhase, syncFinish]
        intro hmem
        simp only [List.mem_cons] at hmem
        rcases hmem with hh | hh | hh
        · cases hh
        · cases hh
        · simp only [List.nil_append] at hh
          exact uploadPass_no_delete excl m _ _ hh

def fnA : List Nat := strCodes ("a.png")
def fnB : List Nat := strCodes ("b.png")
def envC2 : Env := ⟨true, [⟨fnA, false, [1]⟩, ⟨fnB, false, [2]⟩], none, [], [], []⟩

theorem C2_removal_pass_witness :
    (removalPass envC2 [fnA] (remoteFileNames envC2.remote)).removed = 1 ∧
    (performSync envC2 [] []).res.removed = 0 := by
  constructor
  · rw [(C2_removal_pass envC2 [] [fnA] (by decide)).1]
    decide
  · exact (C2_removal_pass envC2 [] [fnA] (by decide)).2.1

/-! ## The upload decision characterized -/

/-- Claim C1: the upload decision of shouldUploadFile — upload when the
local extraction fails, when the remote copy cannot be downloaded, or
when its extraction fails; otherwise compare the effective versions
Number(version || 1.0) of the two extracts and upload exactly on a
strictly greater local value, the equal case and the incomparable (NaN)
case both skipping. A falsy stored version (0, "", null, false) is
replaced by 1.0 before the comparison, so ties and order are judged on
these effective values rather than the stored ones, and byte contents
never enter the decision. -/
theorem C1_upload_decision (env : Env) (localContent n : List Nat) :
    (extractCharacterData localContent = none →
      (shouldUploadFile env localContent n).1 = true) ∧
    (∀ ld, extractCharacterData localContent = some ld →
      downloadToCache env n = none →
      (shouldUploadFile env localContent n).1 = true) ∧
    (∀ ld rc, extractCharacterData localContent = some ld →
      downloadToCache env n = some rc → extractCharacterData rc = none →
      (shouldUploadFile env localContent n).1 = true) ∧
    (∀ ld rc rd, extractCharacterData localContent = some ld →
      downloadToCache env n = some rc → extractCharacterData rc = some rd →
      (shouldUploadFile env localContent n).1 =
        numGtB (versionNum ld) (versionNum rd)) := by
  refine ⟨?_, ?_, ?_, ?_⟩
  · intro h
    rw [shouldUploadFile, h]
    rfl
  · intro ld hld hdl
    rw [shouldUploadFile, hld]
    show shouldUploadRemote ld (downloadToCache env n) = true
    rw [hdl]
    rfl
  · intro ld rc hld hdl hrc
    rw [shouldUploadFile, hld]
    show shouldUploadRemote ld (downloadToCache env n) = true
    rw [hdl]
    show shouldUploadRemoteData ld (extractCharacterData rc) = true
    rw [hrc]
    rfl
  · intro ld rc rd hld hdl hrd
    rw [shouldUploadFile, hld]
    show shouldUploadRemote ld (downloadToCache env n) =
      numGtB (versionNum ld) (versionNum rd)
    rw [hdl]
    show shouldUploadRemoteData ld (extractCharacterData rc) =
      numGtB (versionNum ld) (versionNum rd)
    rw [hrd]
    show (if numGtB (versionNum ld) (versionNum rd) then true
      else if numEqB (versionNum ld) (versionNum rd) then false else false) =
      numGtB (versionNum ld) (versionNum rd)
    cases hgt : numGtB (versionNum ld) (versionNum rd)
    · rw [if_neg (by simp)]
      split_ifs <;> rfl
    · rw [if_pos rfl]

/-! ## The tag-exclusion guards -/

/-- Claim C3: when the tag guard actually fires — the PNG branch needs
an extracted object whose tags member is truthy, the JSON branch a
parsed object bearing a tags key — and a converted tag is a member of
excludeTags, the file is skipped with no remote operation at all: the
exclusion test precedes the version probe and the transfer. A falsy
tags value (an empty string among others) bypasses the PNG guard
entirely (see the counterexample). -/
theorem C3_tag_exclusion (env : Env) (excl : List (List Nat)) (n content : List Nat) :
    (env.clientInit = true → dotPng.isSuffixOf n = true →
      pngTagSkip excl (extractCharacterData content) = true →
      uploadCharacter env excl n content = ⟨false, env, []⟩) ∧
    (env.clientInit = true → dotPng.isSuffixOf n = false → dotJson.isSuffixOf n = true →
      ∀ d, jsonParse (utf8Decode content) = some d →
      jsonTagSkip excl d = true →
      uploadCharacter env excl n content = ⟨false, env, []⟩) := by
  constructor
  · intro hc hpng hskip
    rw [uploadCharacter, if_neg (by simp [hc]), if_pos hpng,
      pngFlow, if_pos hskip]
  · intro hc hpng hjson d hparse hskip
    rw [uploadCharacter, if_neg (by simp [hc]),
      if_neg (by rw [hpng]; exact Bool.false_ne_true), if_pos hjson, hparse]
    show jsonFlow env excl n content (some d) = ⟨false, env, []⟩
    rw [jsonFlow, if_pos hskip]

/-! ## Outcomes of uploadCharacter on the environment -/

theorem uploadAfterDecision_cases (env : Env) (n content : List Nat)
    (p : Bool × List RAction) :
    ((uploadAfterDecision env n content p).ok = false ∧
      (uploadAfterDecision env n content p).env = env) ∨
    ((uploadAfterDecision env n content p).ok = true ∧
      (uploadAfterDecision env n content p).env =
        { env with remote := upsertRemote env.remote n content } ∧
      n ∉ env.uploadFails ∧ uploadFolderClash env.remote n = false) := by
  rcases p with ⟨ok, tr⟩
  cases ok
  · left
    exact ⟨rfl, rfl⟩
  · simp only [uploadAfterDecision]
    rw [doUpload]
    by_cases h1 : n ∈ env.uploadFails
    · rw [if_pos h1]
      left
      exact ⟨rfl, rfl⟩
    · rw [if_neg h1]
      by_cases h2 : uploadFolderClash env.remote n = true
      · rw [if_pos h2]
        left
        exact ⟨rfl, rfl⟩
      · rw [if_neg h2]
        right
        exact ⟨rfl, rfl, h1, by simpa using h2⟩

/-- Every false outcome leaves the environment unchanged; every true
outcome is exactly the overwrite upsert of the file, and only happens
with no transfer failure and no folder in the way. -/
theorem uploadCharacter_env_cases (env : Env) (excl : List (List Nat))
    (n content : List Nat) :
    ((uploadCharacter env excl n content).ok = false ∧
      (uploadCharacter env excl n content).env = env) ∨
    ((uploadCharacter env excl n content).ok = true ∧
      (uploadCharacter env excl n content).env =
        { env with remote := upsertRemote env.remote n content } ∧
      n ∉ env.uploadFails ∧ uploadFolderClash env.remote n = false) := by
  rw [uploadCharacter]
  split_ifs with h1 h2 h3
  · left
    exact ⟨rfl, rfl⟩
  · rw [pngFlow]
    split_ifs with ht
    · left
      exact ⟨rfl, rfl⟩
    · exact uploadAfterDecision_cases env n content _
  · cases hp : jsonParse (utf8Decode content) with
    | none =>
      simp only [jsonFlow]
      exact uploadAfterDecision_cases env n content (true, [])
    | some d =>
      simp only [jsonFlow]
      split_ifs with ht
      · left
        exact ⟨rfl, rfl⟩
      · exact uploadAfterDecision_cases env n content _
  · left
    exact ⟨rfl, rfl⟩

/-- Claim C4: a per-file network failure of the transfer is caught:
that uploadCharacter call returns false with the remote state
untouched, the pass continues with the remaining files, and the failed
file moves neither uploadedCount (the counter only moves on a true
outcome) nor removedCount. An unparsable .json file, however, is not
treated this way: its parse failure is caught with "continue with
upload anyway" and the file is uploaded and counted (see the
counterexample). -/
theorem C4_per_file_failure (env : Env) (excl : List (List Nat)) (f : LocalEntry)
    (rest : List LocalEntry) :
    (f.name ∈ env.uploadFails →
      (uploadCharacter env excl f.name f.content).ok = false ∧
      (uploadCharacter env excl f.name f.content).env = env) ∧
    (f.isDir = false → (uploadCharacter env excl f.name f.content).ok = false →
      uploadPass excl env (f :: rest) =
        ⟨(uploadPass excl env rest).env, (uploadPass excl env rest).count,
          (uploadCharacter env excl f.name f.content).trace ++
            (uploadPass excl env rest).trace⟩) := by
  constructor
  · intro hf
    rcases uploadCharacter_env_cases env excl f.name f.content with h | h
    · exact ⟨h.1, h.2⟩
    · exact absurd hf h.2.2.1
  · intro hdir hok
    have henv : (uploadCharacter env excl f.name f.content).env = env := by
      rcases uploadCharacter_env_cases env excl f.name f.content with h | h
      · exact h.2
      · rw [hok] at h
        exact absurd h.1 Bool.false_ne_true
    rw [uploadPass, if_neg (by rw [hdir]; exact Bool.false_ne_true), henv]
    simp only [upCons, hok]
    rfl

/-! ## Concrete parse failures used by the counterexamples -/

theorem jsonParse_x : jsonParse [120] = none := by
  rw [jsonParse]
  show jsonParseEnd (parseVal (1 + 1) [120]) = none
  rw [parseVal, show skipWsJson [120] = [120] from rfl, parseValCore]
  rfl

theorem jsonParse_e30 : jsonParse [101, 51, 48, 61] = none := by
  rw [jsonParse]
  show jsonParseEnd (parseVal (4 + 1) [101, 51, 48, 61]) = none
  rw [parseVal, show skipWsJson [101, 51, 48, 61] = [101, 51, 48, 61] from rfl,
    parseValCore]
  rfl

/-! ## Claim C8: the embedding round trip -/

/-- Claim C8: embedding a well-formed JSON object's serialization,
base64-encoded, as the chara tEXt chunk of a PNG and running the
extractor yields the same object with a numeric version member set from
the object's own version chain. The round trip asks the serialization
for at least seven bytes: below that the base64 text falls under the
ten characters isBase64 requires, the payload is then parsed as raw
JSON and rejected, and the extraction returns null — the empty object
is the counterexample. -/
theorem C8_round_trip (ms : JsonObj) (hwf : JsonValue.wf (.jobj ms) = true)
    (hlen : 7 ≤ (stringify (.jobj ms)).length)
    (hbound : (stringify (.jobj ms)).length < 3221225465) :
    extractCharacterData (mkCharaPng (base64Encode (stringify (.jobj ms)))) =
      some (.jobj (ms.setKey kVersion (.jnum (extractVersionNumber (.jobj ms))))) :=
  extractCharacterData_mkCharaPng ms hwf hlen hbound

def objW : JsonObj := .cons kName (.jstr [65, 98]) .nil

theorem C8_round_trip_witness :
    JsonValue.wf (.jobj objW) = true ∧ 7 ≤ (stringify (.jobj objW)).length ∧
    extractCharacterData (mkCharaPng (base64Encode (stringify (.jobj objW)))) =
      some (.jobj (objW.setKey kVersion (.jnum (extractVersionNumber (.jobj objW))))) :=
  ⟨by decide, by decide, C8_round_trip objW (by decide) (by decide) (by decide)⟩

def emptyPng : List Nat := mkCharaPng (base64Encode (stringify (.jobj .nil)))

theorem C8_round_trip_counterexample : extractCharacterData emptyPng = none := by
  have hmeta : extractPngMetadata emptyPng =
      [⟨strCodes ("chara"), base64Encode (stringify (.jobj .nil))⟩] := by
    rw [emptyPng]
    exact extractPngMetadata_mkCharaPng _ (by decide) (base64Encode_ascii _)
  rw [emptyPng, extractCharacterData]
  rw [show mkCharaPng (base64Encode (stringify (.jobj .nil))) = emptyPng from rfl]
  simp only [hmeta]
  rw [show base64Encode (stringify (JsonValue.jobj .nil)) = [101, 51, 48, 61] from
    by decide]
  have htf : tryField [101, 51, 48, 61] = none := by
    rw [tryField, if_neg (by decide), jsonParse_e30]
    rfl
  simp +decide [keywordLoop, fieldNames, findChunk, fieldTry, htf, orO, fallbackLoop]

/-! ## Claim C1's counterexample -/

def objL : JsonObj := .cons kVersion (.jnum ⟨0, 0⟩) .nil
def objR : JsonObj := .cons kVersion (.jstr [48, 46, 53]) .nil
def bufL : List Nat := mkCharaPng (base64Encode (stringify (.jobj objL)))
def bufR : List Nat := mkCharaPng (base64Encode (stringify (.jobj objR)))
def fnV : List Nat := strCodes ("v.png")
def envC1 : Env := ⟨true, [⟨fnV, false, bufR⟩], none, [], [], []⟩

theorem extract_bufL : extractCharacterData bufL = some (.jobj objL) := by
  rw [bufL, extractCharacterData_mkCharaPng objL (by decide) (by decide) (by decide)]
  decide

theorem extract_bufR :
    extractCharacterData bufR = some (.jobj (.cons kVersion (.jnum ⟨5, 1⟩) .nil)) := by
  rw [bufR, extractCharacterData_mkCharaPng objR (by decide) (by decide) (by decide)]
  decide

/-- Claim C1 counterexample: the local copy stores version 0, the
remote copy version 0.5, so the spec's reading — local below remote —
demands a skip; the code replaces the falsy 0 by 1.0, compares 1 > 0.5
and uploads. -/
theorem C1_upload_decision_counterexample :
    extractCharacterData bufL = some (.jobj objL) ∧
    getField (.jobj objL) kVersion = some (.jnum ⟨0, 0⟩) ∧
    extractCharacterData bufR = some (.jobj (.cons kVersion (.jnum ⟨5, 1⟩) .nil)) ∧
    JNumber.ltB ⟨0, 0⟩ ⟨5, 1⟩ = true ∧
    (shouldUploadFile envC1 bufL fnV).1 = true := by
  refine ⟨extract_bufL, by decide, extract_bufR, by decide, ?_⟩
  rw [shouldUploadFile, extract_bufL]
  show shouldUploadRemote (.jobj objL) (downloadToCache envC1 fnV) = true
  rw [show downloadToCache envC1 fnV = some bufR from rfl]
  show shouldUploadRemoteData (.jobj objL) (extractCharacterData bufR) = true
  rw [extract_bufR]
  decide

/-! ## Claim C3's counterexample -/

def obj3 : JsonObj := .cons kTags (.jstr []) .nil
def buf3 : List Nat := mkCharaPng (base64Encode (stringify (.jobj obj3)))
def envC3 : Env := ⟨true, [], none, [], [], []⟩
def fnC : List Nat := strCodes ("c.png")

theorem extract_buf3 :
    extractCharacterData buf3 =
      some (.jobj (.cons kTags (.jstr [])
        (.cons kVersion (.jnum ⟨1, 0⟩) .nil))) := by
  rw [buf3, extractCharacterData_mkCharaPng obj3 (by decide) (by decide) (by decide)]
  decide

/-- Claim C3 counterexample: the card's tags member is the empty
string; splitting it yields the one-element tag list [""] and the
exclude list holds "" — per the spec the file must be skipped — yet the
empty string is falsy, the PNG guard never runs, and the file is
uploaded. -/
theorem C3_tag_exclusion_counterexample :
    extractCharacterData buf3 =
      some (.jobj (.cons kTags (.jstr []) (.cons kVersion (.jnum ⟨1, 0⟩) .nil))) ∧
    hasExcluded (convertTagsToArray (.jstr [])) [[]] = true ∧
    (uploadCharacter envC3 [[]] fnC buf3).ok = true := by
  refine ⟨extract_buf3, by decide, ?_⟩
  rw [uploadCharacter, if_neg (by decide), if_pos (by decide), pngFlow]
  rw [if_neg (by rw [extract_buf3]; decide)]
  rw [shouldUploadFile, extract_buf3]
  show (uploadAfterDecision envC3 fnC buf3
    (shouldUploadRemote _ (downloadToCache envC3 fnC), [RAction.download fnC])).ok = true
  rw [show downloadToCache envC3 fnC = none from rfl]
  show (doUpload envC3 fnC buf3 [RAction.download fnC]).ok = true
  rw [doUpload, if_neg (by decide), if_neg (by decide)]

/-! ## Claim C4's counterexample: the unparsable .json file is uploaded
and counted -/

def jnameG : List Nat := strCodes ("g.json")
def envJ : Env := ⟨true, [], some [⟨jnameG, false, [120]⟩], [], [], []⟩
def envJ2 : Env :=
  ⟨true, [⟨jnameG, false, [120]⟩], some [⟨jnameG, false, [120]⟩], [], [], []⟩

theorem uploadCharacter_envJ :
    uploadCharacter envJ [] jnameG [120] = ⟨true, envJ2, [.upload jnameG [120]]⟩ := by
  rw [uploadCharacter, if_neg (by decide), if_neg (by decide), if_pos (by decide),
    show utf8Decode [120] = [120] from rfl, jsonParse_x]
  decide

theorem performSync_envJ :
    performSync envJ [] [] =
      ⟨⟨true, 1, 0⟩, envJ2, [.getMetadata, .listFolder, .upload jnameG [120]]⟩ := by
  rw [performSync, if_neg (by decide)]
  rw [show removalPass envJ [] (remoteFileNames envJ.remote) = ⟨envJ, 0, []⟩ from
    by decide]
  rw [show envJ.localDir = some [⟨jnameG, false, [120]⟩] from rfl]
  show syncFinish ⟨envJ, 0, []⟩
    (uploadPass [] envJ (charFilter [] [⟨jnameG, false, [120]⟩])) = _
  rw [show charFilter [] [⟨jnameG, false, [120]⟩] = [⟨jnameG, false, [120]⟩] from
    by decide]
  rw [uploadPass, if_neg (by decide), uploadCharacter_envJ]
  rfl

/-- Claim C4 counterexample: a .json file whose bytes are not JSON — the
parse fails — is nevertheless transferred ("continue with upload
anyway") and counted: the sync reports one upload and the trace shows
the transfer. -/
theorem C4_per_file_failure_counterexample :
    jsonParse (utf8Decode [120]) = none ∧
    (performSync envJ [] []).res.count = 1 ∧
    RAction.upload jnameG [120] ∈ (performSync envJ [] []).trace := by
  refine ⟨by rw [show utf8Decode [120] = [120] from rfl]; exact jsonParse_x, ?_, ?_⟩
  · rw [performSync_envJ]
  · rw [performSync_envJ]
    simp

/-! ## Frame lemmas for the idempotence analysis -/

theorem findRemote_name (r : List RemoteEntry) (n : List Nat) (e : RemoteEntry)
    (h : findRemote r n = some e) : e.name = n := by
  induction r with
  | nil => cases h
  | cons e2 t ih =>
    rw [findRemote] at h
    by_cases he : e2.name = n
    · rw [if_pos he] at h
      cases h
      exact he
    · rw [if_neg he] at h
      exact ih h

theorem findRemote_upsert_self (r : List RemoteEntry) (n c : List Nat) :
    findRemote (upsertRemote r n c) n = some ⟨n, false, c⟩ := by
  induction r with
  | nil => simp [upsertRemote, findRemote]
  | cons e t ih =>
    rw [upsertRemote]
    by_cases he : e.name = n
    · rw [if_pos he, findRemote, if_pos rfl]
    · rw [if_neg he, findRemote, if_neg he]
      exact ih

theorem findRemote_upsert_other (r : List RemoteEntry) (n c m : List Nat) (h : m ≠ n) :
    findRemote (upsertRemote r n c) m = findRemote r m := by
  induction r with
  | nil =>
    simp only [upsertRemote, findRemote]
    rw [if_neg (fun hm : n = m => h hm.symm)]
  | cons e t ih =>
    rw [upsertRemote]
    by_cases he : e.name = n
    · rw [if_pos he, findRemote, findRemote,
        if_neg (fun hm : n = m => h hm.symm), if_neg (by rw [he]; exact fun hm => h hm.symm)]
    · rw [if_neg he, findRemote, findRemote, ih]

theorem downloadToCache_some (env : Env) (n rc : List Nat)
    (h : downloadToCache env n = some rc) :
    findRemote env.remote n = some ⟨n, false, rc⟩ := by
  rw [downloadToCache] at h
  by_cases h1 : env.clientInit = false
  · rw [if_pos h1] at h
    exact absurd h (by simp)
  · rw [if_neg h1] at h
    by_cases h2 : n ∈ env.downloadFails
    · rw [if_pos h2] at h
      exact absurd h (by simp)
    · rw [if_neg h2] at h
      cases hf : findRemote env.remote n with
      | none =>
        rw [hf] at h
        exact absurd h (by simp [downloadOf])
      | some e =>
        rw [hf] at h
        have hname := findRemote_name env.remote n e hf
        simp only [downloadOf] at h
        by_cases hfol : e.isFolder = true
        · rw [if_pos hfol] at h
          exact absurd h (by simp)
        · rw [if_neg hfol] at h
          have hc : e.content = rc := Option.some.inj h
          have hfol2 : e.isFolder = false := by
            cases hb : e.isFolder
            · rfl
            · exact absurd hb hfol
          cases e
          simp only [Option.some.injEq, RemoteEntry.mk.injEq]
          exact ⟨hname, hfol2, hc⟩

theorem removalPass_fields (allow : List (List Nat)) :
    ∀ (names : List (List Nat)) (env : Env),
    (removalPass env allow names).env.clientInit = env.clientInit ∧
    (removalPass env allow names).env.localDir = env.localDir ∧
    (removalPass env allow names).env.downloadFails = env.downloadFails ∧
    (removalPass env allow names).env.uploadFails = env.uploadFails ∧
    (removalPass env allow names).env.deleteFails = env.deleteFails := by
  intro names
  induction names with
  | nil =>
    intro env
    exact ⟨rfl, rfl, rfl, rfl, rfl⟩
  | cons n rest ih =>
    intro env
    rw [removalPass]
    split_ifs with h1 h2 h3
    · exact ih env
    · exact ih env
    · simpa only [remFailCons] using ih env
    · simpa only [remOkCons] using ih _

theorem uploadCharacter_fields (env : Env) (excl : List (List Nat))
    (n content : List Nat) :
    (uploadCharacter env excl n content).env.clientInit = env.clientInit ∧
    (uploadCharacter env excl n content).env.localDir = env.localDir ∧
    (uploadCharacter env excl n content).env.downloadFails = env.downloadFails ∧
    (uploadCharacter env excl n content).env.uploadFails = env.uploadFails ∧
    (uploadCharacter env excl n content).env.deleteFails = env.deleteFails := by
  rcases uploadCharacter_env_cases env excl n content with h | h
  · rw [h.2]
    exact ⟨rfl, rfl, rfl, rfl, rfl⟩
  · rw [h.2.1]
    exact ⟨rfl, rfl, rfl, rfl, rfl⟩

theorem uploadPass_fields (excl : List (List Nat)) :
    ∀ (files : List LocalEntry) (env : Env),
    (uploadPass excl env files).env.clientInit = env.clientInit ∧
    (uploadPass excl env files).env.localDir = env.localDir ∧
    (uploadPass excl env files).env.downloadFails = env.downloadFails ∧
    (uploadPass excl env files).env.uploadFails = env.uploadFails ∧
    (uploadPass excl env files).env.deleteFails = env.deleteFails := by
  intro files
  induction files with
  | nil =>
    intro env
    exact ⟨rfl, rfl, rfl, rfl, rfl⟩
  | cons f rest ih =>
    intro env
    rw [uploadPass]
    split_ifs with h
    · exact ih env
    · have hu := uploadCharacter_fields env excl f.name f.content
      have hr := ih (uploadCharacter env excl f.name f.content).env
      simp only [upCons]
      exact ⟨hr.1.trans hu.1, hr.2.1.trans hu.2.1, hr.2.2.1.trans hu.2.2.1,
        hr.2.2.2.1.trans hu.2.2.2.1, hr.2.2.2.2.trans hu.2.2.2.2⟩

theorem removalPass_findRemote (allow : List (List Nat)) :
    ∀ (names : List (List Nat)) (env : Env) (m : List Nat),
    delTarget allow m = false →
    findRemote (removalPass env allow names).env.remote m = findRemote env.remote m := by
  intro names
  induction names with
  | nil =>
    intro env m _
    rfl
  | cons n rest ih =>
    intro env m hm
    rw [removalPass]
    by_cases h1 : (dotPng.isSuffixOf n || dotJson.isSuffixOf n) = true
    · rw [if_neg (by rw [h1]; simp)]
      by_cases h2 : allow = [] ∨ n ∈ allow
      · rw [if_pos h2]
        exact ih env m hm
      · rw [if_neg h2]
        have hdt : delTarget allow n = true := by
          push_neg at h2
          simp [delTarget, h1, h2.1, h2.2]
        have hmn : m ≠ n := fun hmn => by
          rw [hmn, hdt] at hm
          cases hm
        by_cases h3 : n ∈ env.deleteFails ∨ findRemote env.remote n = none
        · rw [if_pos h3]
          simpa only [remFailCons] using ih env m hm
        · rw [if_neg h3]
          simp only [remOkCons]
          rw [ih _ m hm]
          exact findRemote_deleteRemote env.remote n m hmn
    · simp only [Bool.not_eq_true] at h1
      rw [if_pos (by rw [h1]; rfl)]
      exact ih env m hm

theorem uploadPass_findRemote (excl : List (List Nat)) :
    ∀ (files : List LocalEntry) (env : Env) (m : List Nat),
    m ∉ files.map (fun f => f.name) →
    findRemote (uploadPass excl env files).env.remote m = findRemote env.remote m := by
  intro files
  induction files with
  | nil =>
    intro env m _
    rfl
  | cons f rest ih =>
    intro env m hm
    simp only [List.map_cons, List.mem_cons] at hm
    push_neg at hm
    rw [uploadPass]
    split_ifs with h
    · exact ih env m (by simpa using hm.2)
    · simp only [upCons]
      rw [ih _ m (by simpa using hm.2)]
      rcases uploadCharacter_env_cases env excl f.name f.content with hcase | hcase
      · rw [hcase.2]
      · rw [hcase.2.1]
        exact findRemote_upsert_other env.remote f.name f.content m hm.1

/-! ## Skip lemmas: what makes uploadCharacter return false, and when
it must do so again -/

theorem uploadCharacter_tag_skip (env : Env) (excl : List (List Nat))
    (n content : List Nat) (hc : env.clientInit = true)
    (hpng : dotPng.isSuffixOf n = true)
    (ht : pngTagSkip excl (extractCharacterData content) = true) :
    (uploadCharacter env excl n content).ok = false := by
  rw [uploadCharacter, if_neg (by simp [hc]), if_pos hpng, pngFlow, if_pos ht]

theorem shouldUploadRemoteData_self (d : JsonValue) :
    shouldUploadRemoteData d (some d) = false := by
  show (if numGtB (versionNum d) (versionNum d) then true
    else if numEqB (versionNum d) (versionNum d) then false else false) = false
  have hgt : numGtB (versionNum d) (versionNum d) = false := by
    cases hv : versionNum d with
    | none => rfl
    | some q => exact JNumber.ltB_irrefl q
  rw [hgt]
  rw [if_neg (by simp)]
  split_ifs <;> rfl

theorem uploadCharacter_skip (env : Env) (excl : List (List Nat)) (n content : List Nat)
    (d : JsonValue) (hc : env.clientInit = true) (hpng : dotPng.isSuffixOf n = true)
    (hld : extractCharacterData content = some d)
    (hskip : shouldUploadRemote d (downloadToCache env n) = false) :
    (uploadCharacter env excl n content).ok = false := by
  rw [uploadCharacter, if_neg (by simp [hc]), if_pos hpng, pngFlow]
  split_ifs with ht
  · rfl
  · rw [shouldUploadFile, hld]
    show (uploadAfterDecision env n content
      (shouldUploadRemote d (downloadToCache env n), [RAction.download n])).ok = false
    rw [hskip]
    rfl

theorem uploadCharacter_false_reasons (env : Env) (excl : List (List Nat))
    (n content : List Nat) (d : JsonValue)
    (hc : env.clientInit = true) (hpng : dotPng.isSuffixOf n = true)
    (hld : extractCharacterData content = some d)
    (hnf : n ∉ env.uploadFails) (hncl : uploadFolderClash env.remote n = false)
    (hok : (uploadCharacter env excl n content).ok = false) :
    pngTagSkip excl (extractCharacterData content) = true ∨
    (∃ rc, downloadToCache env n = some rc ∧
      shouldUploadRemoteData d (extractCharacterData rc) = false) := by
  rw [uploadCharacter, if_neg (by simp [hc]), if_pos hpng, pngFlow] at hok
  by_cases ht : pngTagSkip excl (extractCharacterData content) = true
  · exact Or.inl ht
  · right
    rw [if_neg ht, shouldUploadFile, hld] at hok
    have hdoup : (uploadAfterDecision env n content
        (true, [RAction.download n])).ok = true := by
      show (doUpload env n content [RAction.download n]).ok = true
      rw [doUpload, if_neg hnf, if_neg (by rw [hncl]; exact Bool.false_ne_true)]
    cases hdl : downloadToCache env n with
    | none =>
      exfalso
      rw [show shouldUploadLocal env n (some d) =
        (shouldUploadRemote d (downloadToCache env n), [RAction.download n]) from rfl,
        hdl] at hok
      rw [show shouldUploadRemote d none = true from rfl] at hok
      rw [hdoup] at hok
      simp at hok
    | some rc =>
      refine ⟨rc, rfl, ?_⟩
      rw [show shouldUploadLocal env n (some d) =
        (shouldUploadRemote d (downloadToCache env n), [RAction.download n]) from rfl,
        hdl] at hok
      cases hsd : shouldUploadRemoteData d (extractCharacterData rc) with
      | false => rfl
      | true =>
        exfalso
        rw [show shouldUploadRemote d (some rc) =
          shouldUploadRemoteData d (extractCharacterData rc) from rfl, hsd] at hok
        rw [hdoup] at hok
        simp at hok

theorem uploadPass_zero (excl : List (List Nat)) :
    ∀ (files : List LocalEntry) (env : Env),
    (∀ f ∈ files, f.isDir = false →
      (uploadCharacter env excl f.name f.content).ok = false) →
    (uploadPass excl env files).count = 0 ∧ (uploadPass excl env files).env = env := by
  intro files
  induction files with
  | nil =>
    intro env _
    exact ⟨rfl, rfl⟩
  | cons f rest ih =>
    intro env h
    rw [uploadPass]
    split_ifs with hd
    · exact ih env (fun g hg => h g (List.mem_cons_of_mem _ hg))
    · have hdir : f.isDir = false := by
        cases hb : f.isDir
        · rfl
        · exact absurd hb hd
      have hokf := h f (List.mem_cons_self f rest) hdir
      have henv : (uploadCharacter env excl f.name f.content).env = env := by
        rcases uploadCharacter_env_cases env excl f.name f.content with hcase | hcase
        · exact hcase.2
        · rw [hokf] at hcase
          exact absurd hcase.1 Bool.false_ne_true
      rw [henv]
      have hr := ih env (fun g hg => h g (List.mem_cons_of_mem _ hg))
      constructor
      · simp only [upCons, hokf]
        rw [if_neg (by simp), hr.1]
      · simp only [upCons]
        exact hr.2

/-! ## The upload pass postcondition after one run -/

theorem charFilter_mem (allow : List (List Nat)) (files : List LocalEntry)
    (f : LocalEntry) (h : f ∈ charFilter allow files) :
    f ∈ files ∧ (dotPng.isSuffixOf f.name || dotJson.isSuffixOf f.name) = true ∧
      (allow = [] ∨ f.name ∈ allow) := by
  simp only [charFilter] at h
  by_cases ha : allow = []
  · rw [if_pos ha] at h
    obtain ⟨h1, h2⟩ := List.mem_filter.mp h
    exact ⟨h1, h2, Or.inl ha⟩
  · rw [if_neg ha] at h
    obtain ⟨h1, h2⟩ := List.mem_filter.mp h
    obtain ⟨h3, h4⟩ := List.mem_filter.mp h1
    exact ⟨h3, h4, Or.inr (by simpa using h2)⟩

theorem charFilter_nodup (allow : List (List Nat)) (files : List LocalEntry)
    (h : (files.map (fun f => f.name)).Nodup) :
    ((charFilter allow files).map (fun f => f.name)).Nodup := by
  have hsub : List.Sublist (charFilter allow files) files := by
    simp only [charFilter]
    by_cases ha : allow = []
    · rw [if_pos ha]
      exact List.filter_sublist files
    · rw [if_neg ha]
      exact (List.filter_sublist _).trans (List.filter_sublist files)
  exact List.Nodup.sublist (List.Sublist.map _ hsub) h

theorem uploadPass_post (excl : List (List Nat)) :
    ∀ (files : List LocalEntry) (env : Env),
    env.clientInit = true →
    env.uploadFails = [] →
    (files.map (fun f => f.name)).Nodup →
    (∀ f ∈ files, f.isDir = false →
      dotPng.isSuffixOf f.name = true ∧
      (∃ d, extractCharacterData f.content = some d) ∧
      uploadFolderClash env.remote f.name = false) →
    ∀ f ∈ files, f.isDir = false →
      pngTagSkip excl (extractCharacterData f.content) = true ∨
      findRemote (uploadPass excl env files).env.remote f.name =
        some ⟨f.name, false, f.content⟩ ∨
      (∃ rc, findRemote (uploadPass excl env files).env.remote f.name =
          some ⟨f.name, false, rc⟩ ∧
        ∀ d, extractCharacterData f.content = some d →
          shouldUploadRemoteData d (extractCharacterData rc) = false) := by
  intro files
  induction files with
  | nil =>
    intro env _ _ _ _ f hf
    cases hf
  | cons g rest ih =>
    intro env hc huf hnodup hprops f hf hdir
    have hnodup2 : g.name ∉ rest.map (fun f => f.name) ∧
        (rest.map (fun f => f.name)).Nodup := by
      rw [List.map_cons] at hnodup
      exact List.nodup_cons.mp hnodup
    obtain ⟨hgn, hrestnodup⟩ := hnodup2
    rw [uploadPass]
    by_cases hgdir : g.isDir = true
    · rw [if_pos hgdir]
      rcases List.mem_cons.mp hf with hfg | hfr
      · subst hfg
        rw [hdir] at hgdir
        cases hgdir
      · exact ih env hc huf hrestnodup
          (fun x hx hxd => hprops x (List.mem_cons_of_mem _ hx) hxd) f hfr hdir
    · rw [if_neg hgdir]
      simp only [upCons]
      rcases uploadCharacter_env_cases env excl g.name g.content with hu | hu
      · have henv := hu.2
        rcases List.mem_cons.mp hf with hfg | hfr
        · subst hfg
          obtain ⟨hpng, ⟨d, hd⟩, hncl⟩ := hprops f (List.mem_cons_self f rest) hdir
          rcases uploadCharacter_false_reasons env excl f.name f.content d hc hpng hd
            (by rw [huf]; simp) hncl hu.1 with hts | ⟨rc, hdl, hsk⟩
          · exact Or.inl hts
          · right
            right
            refine ⟨rc, ?_, ?_⟩
            · rw [uploadPass_findRemote excl rest _ f.name hgn, henv]
              exact downloadToCache_some env f.name rc hdl
            · intro d2 hd2
              rw [hd] at hd2
              cases hd2
              exact hsk
        · rw [henv]
          exact ih env hc huf hrestnodup
            (fun x hx hxd => hprops x (List.mem_cons_of_mem _ hx) hxd) f hfr hdir
      · have henv := hu.2.1
        rcases List.mem_cons.mp hf with hfg | hfr
        · subst hfg
          right
          left
          rw [uploadPass_findRemote excl rest _ f.name hgn, henv]
          exact findRemote_upsert_self env.remote f.name f.content
        · rw [henv]
          refine ih { env with remote := upsertRemote env.remote g.name g.content }
            hc huf hrestnodup ?_ f hfr hdir
          intro x hx hxd
          obtain ⟨hpng, hex, hncl⟩ := hprops x (List.mem_cons_of_mem _ hx) hxd
          refine ⟨hpng, hex, ?_⟩
          show uploadFolderClash (upsertRemote env.remote g.name g.content) x.name = false
          have hneq : x.name ≠ g.name := by
            intro hx2
            apply hgn
            rw [← hx2]
            exact List.mem_map_of_mem _ hx
          rw [uploadFolderClash,
            findRemote_upsert_other env.remote g.name g.content x.name hneq]
          rw [uploadFolderClash] at hncl
          exact hncl

/-- Claim C9 (amended): reconciliation is idempotent on the upload side
when every file the run processes is a PNG card the extractor can read,
the transfer primitives do not fail, local names are distinct, and no
remote folder entry shadows a processed name: the second of two
back-to-back runs performs zero uploads, every per-file decision
resolving to a skip. Without the PNG-extractable condition the property
fails — a .json file's local extraction always returns null, so it is
re-uploaded on every run (see the counterexample). -/
theorem C9_idempotence (env : Env) (excl allow : List (List Nat))
    (files : List LocalEntry)
    (hc : env.clientInit = true)
    (hld : env.localDir = some files)
    (hdf : env.downloadFails = [])
    (huf : env.uploadFails = [])
    (hnodup : (files.map (fun f => f.name)).Nodup)
    (hfiles : ∀ f ∈ charFilter allow files, f.isDir = false →
      dotPng.isSuffixOf f.name = true ∧ (∃ d, extractCharacterData f.content = some d))
    (hnofold : ∀ f ∈ charFilter allow files,
      uploadFolderClash env.remote f.name = false) :
    (performSync (performSync env excl allow).env excl allow).res.count = 0 := by
  have hdt : ∀ f ∈ charFilter allow files, delTarget allow f.name = false := by
    intro f hf
    obtain ⟨_, hsuf, hallow⟩ := charFilter_mem allow files f hf
    rcases hallow with h | h <;> simp [delTarget, h]
  have hfieldsA := removalPass_fields allow (remoteFileNames env.remote) env
  have hAclient : (removalPass env allow (remoteFileNames env.remote)).env.clientInit =
      true := by
    rw [hfieldsA.1, hc]
  have hAuf : (removalPass env allow (remoteFileNames env.remote)).env.uploadFails =
      [] := by
    rw [hfieldsA.2.2.2.1, huf]
  have hpropsA : ∀ f ∈ charFilter allow files, f.isDir = false →
      dotPng.isSuffixOf f.name = true ∧
      (∃ d, extractCharacterData f.content = some d) ∧
      uploadFolderClash
        (removalPass env allow (remoteFileNames env.remote)).env.remote f.name =
        false := by
    intro f hf hfd
    obtain ⟨hpng, hex⟩ := hfiles f hf hfd
    refine ⟨hpng, hex, ?_⟩
    have hfr := removalPass_findRemote allow (remoteFileNames env.remote) env f.name
      (hdt f hf)
    have hcl := hnofold f hf
    rw [uploadFolderClash] at hcl ⊢
    rw [hfr]
    exact hcl
  have hpost := uploadPass_post excl (charFilter allow files)
    (removalPass env allow (remoteFileNames env.remote)).env hAclient hAuf
    (charFilter_nodup allow files hnodup) hpropsA
  have hfieldsU := uploadPass_fields excl (charFilter allow files)
    (removalPass env allow (remoteFileNames env.remote)).env
  have h1client : (uploadPass excl
      (removalPass env allow (remoteFileNames env.remote)).env
      (charFilter allow files)).env.clientInit = true := by
    rw [hfieldsU.1, hAclient]
  have h1ld : (uploadPass excl
      (removalPass env allow (remoteFileNames env.remote)).env
      (charFilter allow files)).env.localDir = some files := by
    rw [hfieldsU.2.1, hfieldsA.2.1, hld]
  have h1df : (uploadPass excl
      (removalPass env allow (remoteFileNames env.remote)).env
      (charFilter allow files)).env.downloadFails = [] := by
    rw [hfieldsU.2.2.1, hfieldsA.2.2.1, hdf]
  have hout1env : (performSync env excl allow).env =
      (uploadPass excl (removalPass env allow (remoteFileNames env.remote)).env
        (charFilter allow files)).env := by
    rw [performSync, if_neg (by simp [hc]), hld]
    rfl
  have hrun2count : ∀ envB : Env, envB.clientInit = true → envB.localDir = some files →
      (performSync envB excl allow).res.count =
        (uploadPass excl (removalPass envB allow (remoteFileNames envB.remote)).env
          (charFilter allow files)).count := by
    intro envB hBc hBl
    rw [performSync, if_neg (by simp [hBc]), hBl]
    rfl
  rw [hout1env, hrun2count _ h1client h1ld]
  have hfieldsB := removalPass_fields allow
    (remoteFileNames (uploadPass excl
      (removalPass env allow (remoteFileNames env.remote)).env
      (charFilter allow files)).env.remote)
    (uploadPass excl (removalPass env allow (remoteFileNames env.remote)).env
      (charFilter allow files)).env
  have hBc : (removalPass (uploadPass excl
      (removalPass env allow (remoteFileNames env.remote)).env
      (charFilter allow files)).env allow
      (remoteFileNames (uploadPass excl
        (removalPass env allow (remoteFileNames env.remote)).env
        (charFilter allow files)).env.remote)).env.clientInit = true := by
    rw [hfieldsB.1, h1client]
  have hBdf : (removalPass (uploadPass excl
      (removalPass env allow (remoteFileNames env.remote)).env
      (charFilter allow files)).env allow
      (remoteFileNames (uploadPass excl
        (removalPass env allow (remoteFileNames env.remote)).env
        (charFilter allow files)).env.remote)).env.downloadFails = [] := by
    rw [hfieldsB.2.2.1, h1df]
  apply (uploadPass_zero excl (charFilter allow files)
    (removalPass (uploadPass excl
      (removalPass env allow (remoteFileNames env.remote)).env
      (charFilter allow files)).env allow
      (remoteFileNames (uploadPass excl
        (removalPass env allow (remoteFileNames env.remote)).env
        (charFilter allow files)).env.remote)).env ?_).1
  intro f hf hfd
  obtain ⟨hpng, ⟨d, hd⟩⟩ := hfiles f hf hfd
  have hBfind := removalPass_findRemote allow
    (remoteFileNames (uploadPass excl
      (removalPass env allow (remoteFileNames env.remote)).env
      (charFilter allow files)).env.remote)
    (uploadPass excl (removalPass env allow (remoteFileNames env.remote)).env
      (charFilter allow files)).env f.name (hdt f hf)
  rcases hpost f hf hfd with hts | hfind | ⟨rc, hfind, hsk⟩
  · exact uploadCharacter_tag_skip _ excl f.name f.content hBc hpng hts
  · apply uploadCharacter_skip _ excl f.name f.content d hBc hpng hd
    rw [downloadToCache, if_neg (by simp [hBc]), if_neg (by rw [hBdf]; simp),
      hBfind, hfind]
    show shouldUploadRemoteData d (extractCharacterData f.content) = false
    rw [hd]
    exact shouldUploadRemoteData_self d
  · apply uploadCharacter_skip _ excl f.name f.content d hBc hpng hd
    rw [downloadToCache, if_neg (by simp [hBc]), if_neg (by rw [hBdf]; simp),
      hBfind, hfind]
    show shouldUploadRemoteData d (extractCharacterData rc) = false
    exact hsk d hd

def bufW : List Nat := mkCharaPng (base64Encode (stringify (.jobj objW)))
def fnW : List Nat := strCodes ("w.png")
def envW : Env := ⟨true, [], some [⟨fnW, false, bufW⟩], [], [], []⟩

theorem C9_idempotence_witness :
    (performSync (performSync envW [] []).env [] []).res.count = 0 :=
  C9_idempotence envW [] [] [⟨fnW, false, bufW⟩] rfl rfl rfl rfl (by decide)
    (by
      intro f hf hfd
      rw [show charFilter [] [(⟨fnW, false, bufW⟩ : LocalEntry)] =
        [⟨fnW, false, bufW⟩] from by decide] at hf
      have hf2 := List.mem_singleton.mp hf
      subst hf2
      exact ⟨by decide, ⟨.jobj (objW.setKey kVersion
          (.jnum (extractVersionNumber (.jobj objW)))), by
        show extractCharacterData bufW = _
        rw [bufW]
        exact extractCharacterData_mkCharaPng objW (by decide) (by decide) (by decide)⟩⟩)
    (fun f hf => rfl)

theorem uploadCharacter_envJ2 :
    uploadCharacter envJ2 [] jnameG [120] = ⟨true, envJ2, [.upload jnameG [120]]⟩ := by
  rw [uploadCharacter, if_neg (by decide), if_neg (by decide), if_pos (by decide),
    show utf8Decode [120] = [120] from rfl, jsonParse_x]
  decide

theorem performSync_envJ2 :
    performSync envJ2 [] [] =
      ⟨⟨true, 1, 0⟩, envJ2, [.getMetadata, .listFolder, .upload jnameG [120]]⟩ := by
  rw [performSync, if_neg (by decide)]
  rw [show removalPass envJ2 [] (remoteFileNames envJ2.remote) = ⟨envJ2, 0, []⟩ from
    by decide]
  rw [show envJ2.localDir = some [⟨jnameG, false, [120]⟩] from rfl]
  show syncFinish ⟨envJ2, 0, []⟩
    (uploadPass [] envJ2 (charFilter [] [⟨jnameG, false, [120]⟩])) = _
  rw [show charFilter [] [⟨jnameG, false, [120]⟩] = [⟨jnameG, false, [120]⟩] from
    by decide]
  rw [uploadPass, if_neg (by decide), uploadCharacter_envJ2]
  rfl

/-- Claim C9 counterexample: one local .json file, local and remote
state untouched between the runs, and the second run still counts one
upload — the extractor is a PNG parser, a .json file's local extraction
returns null, and its decision never reaches "remote equal, skip". -/
theorem C9_idempotence_counterexample :
    (performSync (performSync envJ [] []).env [] []).res.count = 1 := by
  rw [performSync_envJ]
  show (performSync envJ2 [] []).res.count = 1
  rw [performSync_envJ2]
